import Mathlib

/-!
Verification of the shamir-bip39 repository: a tool that splits a 24-word
BIP-39 mnemonic into Shamir shares over GF(2^8) (one independent polynomial
per entropy byte) and reconstructs it by Lagrange interpolation at x = 0.

The development shallowly embeds the Rust sources (`src/gf256.rs`,
`src/shamir.rs`, `src/bip39.rs`, `src/utils.rs`, `src/main.rs`).  The field
arithmetic itself lives in the external `gf256` crate, the hash in the
external `fastcrypto` crate and the word list in an asset file; those three
are modelled from the specification (carry-less multiplication reduced
modulo 0x11D, SHA-256, and an abstract 2048-word dictionary respectively)
and are marked as such in their doc comments.
-/

/-- XOR of a list of naturals; the additive structure of GF(2)[x] when
polynomials are stored as bitmasks. -/
def xorSum (l : List Nat) : Nat := l.foldr (fun a b => a ^^^ b) 0

theorem xorSum_nil : xorSum [] = 0 := rfl

theorem xorSum_cons (a : Nat) (l : List Nat) : xorSum (a :: l) = a ^^^ xorSum l := rfl

theorem xorSum_append (l₁ l₂ : List Nat) :
    xorSum (l₁ ++ l₂) = xorSum l₁ ^^^ xorSum l₂ := by
  induction l₁ with
  | nil => simp [xorSum_nil, xorSum_cons]
  | cons a l ih => simp [xorSum_cons, ih, Nat.xor_assoc]

theorem xorSum_lt_two_pow {l : List Nat} {k : Nat} (h : ∀ x ∈ l, x < 2 ^ k) :
    xorSum l < 2 ^ k := by
  induction l with
  | nil =>
      rw [xorSum_nil]
      exact Nat.two_pow_pos k
  | cons a l ih =>
      rw [xorSum_cons]
      exact Nat.xor_lt_two_pow (h a (by simp)) (ih fun x hx => h x (by simp [hx]))

theorem xorSum_congr {l₁ l₂ : List Nat} (h : l₁ = l₂) : xorSum l₁ = xorSum l₂ := by rw [h]

/-- Pointwise XOR of two equally long lists of terms pulls out of `xorSum`. -/
theorem xorSum_map_xor {α : Type} (l : List α) (f g : α → Nat) :
    xorSum (l.map fun x => f x ^^^ g x) = xorSum (l.map f) ^^^ xorSum (l.map g) := by
  induction l with
  | nil => simp [xorSum_nil]
  | cons a l ih =>
      simp only [List.map_cons, xorSum_cons, ih]
      rw [Nat.xor_assoc, Nat.xor_assoc]
      congr 1
      rw [← Nat.xor_assoc, ← Nat.xor_assoc, Nat.xor_comm (xorSum (List.map f l)) (g a)]

theorem xorSum_map_zero {α : Type} (l : List α) : xorSum (l.map fun _ => (0 : Nat)) = 0 := by
  induction l with
  | nil => rfl
  | cons a l ih =>
      rw [List.map_cons, xorSum_cons, ih]
      exact Nat.xor_self 0

/-- A map whose terms vanish except at one index sums to that term. -/
theorem xorSum_map_single {n k : Nat} (g : Nat → Nat) (hk : k < n) :
    xorSum ((List.range n).map fun j => if k = j then g j else 0) = g k := by
  induction n with
  | zero => omega
  | succ n ih =>
      rw [List.range_succ, List.map_append, xorSum_append]
      rcases Nat.lt_or_ge k n with h | h
      · rw [ih h]
        have hne : k ≠ n := Nat.ne_of_lt h
        simp only [List.map_singleton, xorSum_cons, xorSum_nil, if_neg hne, Nat.xor_zero]
      · have hk' : k = n := by omega
        subst hk'
        have hz : ((List.range k).map fun j => if k = j then g j else 0) =
            (List.range k).map fun _ => 0 := by
          apply List.map_congr_left
          intro x hx
          rw [List.mem_range] at hx
          simp [Nat.ne_of_gt hx]
        rw [hz, xorSum_map_zero, Nat.zero_xor]
        simp [xorSum_cons, xorSum_nil]

/-- Modelled from the spec: carry-less multiplication of binary polynomials
stored as bitmasks (§4.1, "carry-less multiplication of two bytes").  The
first operand is read out to 16 bits, which covers every product formed in
this development (bytes and single reduction quotients). -/
def clmul (a b : Nat) : Nat :=
  xorSum ((List.range 16).map fun i => if a.testBit i then b <<< i else 0)

theorem clmul_zero_left (b : Nat) : clmul 0 b = 0 := by
  unfold clmul
  have : ((List.range 16).map fun i => if (0 : Nat).testBit i then b <<< i else 0) =
      (List.range 16).map fun _ => 0 := by
    apply List.map_congr_left
    intro x _
    simp [Nat.zero_testBit]
  rw [this, xorSum_map_zero]

theorem clmul_zero_right (a : Nat) : clmul a 0 = 0 := by
  unfold clmul
  have : ((List.range 16).map fun i => if a.testBit i then (0 : Nat) <<< i else 0) =
      (List.range 16).map fun _ => 0 := by
    apply List.map_congr_left
    intro x _
    simp [Nat.zero_shiftLeft]
  rw [this, xorSum_map_zero]

/-- Left operand of `clmul` is XOR-linear. -/
theorem clmul_xor_left (a a' b : Nat) : clmul (a ^^^ a') b = clmul a b ^^^ clmul a' b := by
  unfold clmul
  rw [← xorSum_map_xor]
  apply xorSum_congr
  apply List.map_congr_left
  intro i _
  rw [Nat.testBit_xor]
  cases h1 : a.testBit i <;> cases h2 : a'.testBit i <;> simp

theorem shiftLeft_xor_distrib (a b i : Nat) : (a ^^^ b) <<< i = a <<< i ^^^ b <<< i := by
  apply Nat.eq_of_testBit_eq
  intro j
  simp only [Nat.testBit_shiftLeft, Nat.testBit_xor, Bool.and_xor_distrib_left]

/-- Right operand of `clmul` is XOR-linear. -/
theorem clmul_xor_right (a b b' : Nat) : clmul a (b ^^^ b') = clmul a b ^^^ clmul a b' := by
  unfold clmul
  rw [← xorSum_map_xor]
  apply xorSum_congr
  apply List.map_congr_left
  intro i _
  cases h : a.testBit i <;> simp [shiftLeft_xor_distrib]

theorem clmul_two_pow_left {k : Nat} (b : Nat) (hk : k < 16) : clmul (2 ^ k) b = b <<< k := by
  unfold clmul
  have : ((List.range 16).map fun i => if (2 ^ k).testBit i then b <<< i else 0) =
      (List.range 16).map fun i => if k = i then b <<< i else 0 := by
    apply List.map_congr_left
    intro i _
    rcases Decidable.em (k = i) with h | h
    · subst h
      simp [Nat.testBit_two_pow_self]
    · simp [Nat.testBit_two_pow_of_ne h, h]
  rw [this, xorSum_map_single _ hk]

theorem clmul_lt_two_pow {a b p q : Nat} (ha : a < 2 ^ p) (hb : b < 2 ^ q) :
    clmul a b < 2 ^ (p + q) := by
  unfold clmul
  apply xorSum_lt_two_pow
  intro x hx
  rw [List.mem_map] at hx
  obtain ⟨i, hi, hxi⟩ := hx
  rw [List.mem_range] at hi
  subst hxi
  rcases Nat.lt_or_ge i p with h | h
  · rcases Decidable.em (a.testBit i) with ht | ht
    · rw [if_pos ht, Nat.shiftLeft_eq]
      have h1 : b * 2 ^ i < 2 ^ (q + i) := by
        rw [Nat.pow_add]
        exact (Nat.mul_lt_mul_right (Nat.two_pow_pos i)).mpr hb
      have h2 : (2 : Nat) ^ (q + i) ≤ 2 ^ (q + p - 1) :=
        Nat.pow_le_pow_right (by omega) (by omega)
      have h3 : (2 : Nat) ^ (q + p - 1) < 2 ^ (p + q) :=
        Nat.pow_lt_pow_right (by omega) (by omega)
      omega
    · rw [if_neg ht]
      exact Nat.two_pow_pos _
  · have hf : a.testBit i = false := Nat.testBit_lt_two_pow (Nat.lt_of_lt_of_le ha
      (Nat.pow_le_pow_right (by omega) h))
    rw [hf]
    simp only [Bool.false_eq_true, if_false]
    exact Nat.two_pow_pos _

/-- Two XOR-linear maps agreeing on powers of two below `n` agree below `2 ^ n`. -/
theorem eq_on_lt_of_eq_on_two_pow {f g : Nat → Nat} {n : Nat}
    (hf0 : f 0 = 0) (hg0 : g 0 = 0)
    (hf : ∀ x y, f (x ^^^ y) = f x ^^^ f y) (hg : ∀ x y, g (x ^^^ y) = g x ^^^ g y)
    (hpow : ∀ i < n, f (2 ^ i) = g (2 ^ i)) :
    ∀ a < 2 ^ n, f a = g a := by
  induction n with
  | zero =>
      intro a ha
      have : a = 0 := by omega
      simp [this, hf0, hg0]
  | succ n ih =>
      intro a ha
      rcases Nat.lt_or_ge a (2 ^ n) with h | h
      · exact ih (fun i hi => hpow i (by omega)) a h
      · have hbit : a.testBit n = true := by
          rw [Nat.testBit_to_div_mod]
          have h1 : a / 2 ^ n = 1 := by
            apply Nat.div_eq_of_lt_le
            · simpa using h
            · have h2 : (1 + 1) * 2 ^ n = 2 ^ (n + 1) := by
                rw [Nat.pow_succ, Nat.mul_comm]
              omega
          simp [h1]
        set a' := a ^^^ 2 ^ n with hadef
        have ha' : a' < 2 ^ n := by
          apply Nat.lt_pow_two_of_testBit
          intro i hi
          rcases Nat.eq_or_lt_of_le hi with rfl | hlt
          · simp [hadef, Nat.testBit_xor, hbit, Nat.testBit_two_pow_self]
          · have h1 : a.testBit i = false :=
              Nat.testBit_lt_two_pow (Nat.lt_of_lt_of_le ha (Nat.pow_le_pow_right (by omega) hlt))
            have h2 : (2 ^ n).testBit i = false := Nat.testBit_two_pow_of_ne (by omega)
            simp [hadef, Nat.testBit_xor, h1, h2]
        have haeq : a = a' ^^^ 2 ^ n := by
          rw [hadef, Nat.xor_assoc, Nat.xor_self, Nat.xor_zero]
        rw [haeq, hf, hg, ih (fun i hi => hpow i (by omega)) a' ha',
          hpow n (by omega)]

/-- `clmul` by a power of two on the right is a left shift. -/
theorem clmul_two_pow_right {a k : Nat} (ha : a < 2 ^ 16) : clmul a (2 ^ k) = a <<< k := by
  refine eq_on_lt_of_eq_on_two_pow (f := fun a => clmul a (2 ^ k))
    (g := fun a => a <<< k) (clmul_zero_left _) (Nat.zero_shiftLeft k)
    (fun x y => clmul_xor_left x y _) (fun x y => shiftLeft_xor_distrib x y k) ?_ a ha
  intro i hi
  show clmul (2 ^ i) (2 ^ k) = (2 ^ i) <<< k
  rw [clmul_two_pow_left _ hi]
  rw [Nat.shiftLeft_eq, Nat.shiftLeft_eq, ← Nat.pow_add, ← Nat.pow_add, Nat.add_comm]

theorem clmul_comm {a b : Nat} (ha : a < 2 ^ 16) (hb : b < 2 ^ 16) :
    clmul a b = clmul b a := by
  refine eq_on_lt_of_eq_on_two_pow (f := fun a => clmul a b) (g := fun a => clmul b a)
    (clmul_zero_left _) (clmul_zero_right _) (fun x y => clmul_xor_left x y _)
    (fun x y => clmul_xor_right _ x y) ?_ a ha
  intro i hi
  show clmul (2 ^ i) b = clmul b (2 ^ i)
  rw [clmul_two_pow_left _ hi, clmul_two_pow_right hb]

/-- Shifting the left operand shifts the product, as long as everything fits
in the 16-bit window. -/
theorem clmul_shiftLeft_left {b m : Nat} (c : Nat) {i : Nat} (hb : b < 2 ^ m)
    (him : i + m ≤ 16) : clmul (b <<< i) c = clmul b c <<< i := by
  refine eq_on_lt_of_eq_on_two_pow (f := fun b => clmul (b <<< i) c)
    (g := fun b => clmul b c <<< i) ?_ ?_ ?_ ?_ ?_ b hb
  · show clmul (0 <<< i) c = 0
    rw [Nat.zero_shiftLeft, clmul_zero_left]
  · show clmul 0 c <<< i = 0
    rw [clmul_zero_left, Nat.zero_shiftLeft]
  · intro x y
    show clmul ((x ^^^ y) <<< i) c = clmul (x <<< i) c ^^^ clmul (y <<< i) c
    rw [shiftLeft_xor_distrib, clmul_xor_left]
  · intro x y
    show clmul (x ^^^ y) c <<< i = clmul x c <<< i ^^^ clmul y c <<< i
    rw [clmul_xor_left, shiftLeft_xor_distrib]
  · intro j hj
    show clmul ((2 ^ j) <<< i) c = clmul (2 ^ j) c <<< i
    have h1 : (2 ^ j) <<< i = 2 ^ (j + i) := by
      rw [Nat.shiftLeft_eq, ← Nat.pow_add]
    rw [h1, clmul_two_pow_left _ (by omega), clmul_two_pow_left _ (by omega)]
    rw [Nat.shiftLeft_eq, Nat.shiftLeft_eq, Nat.shiftLeft_eq, Nat.pow_add, ← Nat.mul_assoc]

/-- Associativity of carry-less multiplication, in the widths used here. -/
theorem clmul_assoc {a b c p q : Nat} (ha : a < 2 ^ p) (hb : b < 2 ^ q)
    (hpq : p + q ≤ 17) (hq : 1 ≤ q) : clmul (clmul a b) c = clmul a (clmul b c) := by
  refine eq_on_lt_of_eq_on_two_pow (f := fun a => clmul (clmul a b) c)
    (g := fun a => clmul a (clmul b c)) ?_ ?_ ?_ ?_ ?_ a ha
  · show clmul (clmul 0 b) c = 0
    rw [clmul_zero_left, clmul_zero_left]
  · show clmul 0 (clmul b c) = 0
    rw [clmul_zero_left]
  · intro x y
    show clmul (clmul (x ^^^ y) b) c = clmul (clmul x b) c ^^^ clmul (clmul y b) c
    rw [clmul_xor_left, clmul_xor_left]
  · intro x y
    show clmul (x ^^^ y) (clmul b c) = clmul x (clmul b c) ^^^ clmul y (clmul b c)
    rw [clmul_xor_left]
  · intro i hi
    show clmul (clmul (2 ^ i) b) c = clmul (2 ^ i) (clmul b c)
    rw [clmul_two_pow_left _ (by omega), clmul_two_pow_left _ (by omega),
      clmul_shiftLeft_left c hb (by omega)]

/-- Modelled from the spec: the reducing polynomial of GF(2^8),
x^8 + x^4 + x^3 + x^2 + 1, i.e. 0x11D (§4.1). -/
def gfM : Nat := 0x11D

/-- One reduction step: cancel bit `8 + i` with the modulus shifted by `i`. -/
def redStep (a i : Nat) : Nat := if a.testBit (8 + i) then a ^^^ (gfM <<< i) else a

/-- Modelled from the spec: reduction of a product of two bytes (at most 15
bits wide) modulo 0x11D, clearing bits 14 down to 8 (§4.1). -/
def gmod (a : Nat) : Nat :=
  redStep (redStep (redStep (redStep (redStep (redStep (redStep a 6) 5) 4) 3) 2) 1) 0

theorem redStep_lt {a i : Nat} (h : a < 2 ^ (9 + i)) : redStep a i < 2 ^ (8 + i) := by
  unfold redStep
  rcases Decidable.em (a.testBit (8 + i)) with ht | ht
  · rw [if_pos ht]
    apply Nat.lt_pow_two_of_testBit
    intro k hk
    rw [Nat.testBit_xor]
    rcases Nat.eq_or_lt_of_le hk with rfl | hlt
    · have hm : (gfM <<< i).testBit (8 + i) = true := by
        rw [Nat.testBit_shiftLeft]
        have h8 : 8 + i - i = 8 := by omega
        have : gfM.testBit 8 = true := by decide
        simp [h8, this]
      simp [ht, hm]
    · have h1 : a.testBit k = false :=
        Nat.testBit_lt_two_pow (Nat.lt_of_lt_of_le h (Nat.pow_le_pow_right (by omega) (by omega)))
      have h2 : (gfM <<< i).testBit k = false := by
        rw [Nat.testBit_shiftLeft]
        rcases Decidable.em (k ≥ i) with h3 | h3
        · have h4 : gfM.testBit (k - i) = false := by
            apply Nat.testBit_lt_two_pow
            have : gfM < 2 ^ 9 := by decide
            exact Nat.lt_of_lt_of_le this (Nat.pow_le_pow_right (by omega) (by omega))
          simp [h4]
        · simp [h3]
      simp [h1, h2]
  · rw [if_neg ht]
    apply Nat.lt_pow_two_of_testBit
    intro k hk
    rcases Nat.eq_or_lt_of_le hk with rfl | hlt
    · simpa using ht
    · exact Nat.testBit_lt_two_pow
        (Nat.lt_of_lt_of_le h (Nat.pow_le_pow_right (by omega) (by omega)))

theorem redStep_equiv (a : Nat) {i : Nat} (hi : i < 7) :
    ∃ d, d < 2 ^ 7 ∧ redStep a i ^^^ a = clmul d gfM := by
  unfold redStep
  rcases Decidable.em (a.testBit (8 + i)) with ht | ht
  · refine ⟨2 ^ i, ?_, ?_⟩
    · exact Nat.pow_lt_pow_right (by omega) (by omega)
    · rw [if_pos ht, Nat.xor_assoc, Nat.xor_comm (gfM <<< i) a, ← Nat.xor_assoc,
        Nat.xor_self, Nat.zero_xor, clmul_two_pow_left _ (by omega)]
  · exact ⟨0, Nat.two_pow_pos 7, by rw [if_neg ht, Nat.xor_self, clmul_zero_left]⟩

/-- Composing two reduction deltas. -/
theorem equiv_comp {r1 r2 a d1 d2 : Nat} (h1 : r1 ^^^ a = clmul d1 gfM)
    (h2 : r2 ^^^ r1 = clmul d2 gfM) : r2 ^^^ a = clmul (d2 ^^^ d1) gfM := by
  rw [clmul_xor_left, ← h1, ← h2]
  rw [Nat.xor_assoc, Nat.xor_cancel_left]

theorem gmod_lt {x : Nat} (h : x < 2 ^ 15) : gmod x < 2 ^ 8 := by
  unfold gmod
  have h6 := redStep_lt (i := 6) (by exact h)
  have h5 := redStep_lt (i := 5) h6
  have h4 := redStep_lt (i := 4) h5
  have h3 := redStep_lt (i := 3) h4
  have h2 := redStep_lt (i := 2) h3
  have h1 := redStep_lt (i := 1) h2
  exact redStep_lt (i := 0) h1

theorem gmod_equiv (x : Nat) : ∃ d, d < 2 ^ 8 ∧ gmod x ^^^ x = clmul d gfM := by
  unfold gmod
  obtain ⟨d6, hd6, he6⟩ := redStep_equiv x (i := 6) (by omega)
  obtain ⟨d5, hd5, he5⟩ := redStep_equiv (redStep x 6) (i := 5) (by omega)
  obtain ⟨d4, hd4, he4⟩ := redStep_equiv (redStep (redStep x 6) 5) (i := 4) (by omega)
  obtain ⟨d3, hd3, he3⟩ := redStep_equiv (redStep (redStep (redStep x 6) 5) 4) (i := 3) (by omega)
  obtain ⟨d2, hd2, he2⟩ := redStep_equiv (redStep (redStep (redStep (redStep x 6) 5) 4) 3)
    (i := 2) (by omega)
  obtain ⟨d1, hd1, he1⟩ := redStep_equiv
    (redStep (redStep (redStep (redStep (redStep x 6) 5) 4) 3) 2) (i := 1) (by omega)
  obtain ⟨d0, hd0, he0⟩ := redStep_equiv
    (redStep (redStep (redStep (redStep (redStep (redStep x 6) 5) 4) 3) 2) 1) (i := 0) (by omega)
  have c5 := equiv_comp he6 he5
  have c4 := equiv_comp c5 he4
  have c3 := equiv_comp c4 he3
  have c2 := equiv_comp c3 he2
  have c1 := equiv_comp c2 he1
  have c0 := equiv_comp c1 he0
  refine ⟨_, ?_, c0⟩
  have hb : (2 : Nat) ^ 7 ≤ 2 ^ 8 := by omega
  apply Nat.lt_of_lt_of_le _ hb
  apply Nat.xor_lt_two_pow hd0
  apply Nat.xor_lt_two_pow hd1
  apply Nat.xor_lt_two_pow hd2
  apply Nat.xor_lt_two_pow hd3
  apply Nat.xor_lt_two_pow hd4
  exact Nat.xor_lt_two_pow hd5 hd6

/-- A nonzero multiple of the modulus does not fit in a byte. -/
theorem clmul_gfM_ge {q : Nat} (hq : q < 2 ^ 16) (hq0 : q ≠ 0) : 2 ^ 8 ≤ clmul q gfM := by
  set k := q.log2 with hk
  have hq1 : 1 ≤ q := Nat.one_le_iff_ne_zero.mpr hq0
  have hlow : 2 ^ k ≤ q := Nat.log2_self_le hq0
  have hhigh : q < 2 ^ (k + 1) := Nat.lt_log2_self
  have hk16 : k < 16 := by
    by_contra hcon
    have : (2 : Nat) ^ 16 ≤ 2 ^ k := Nat.pow_le_pow_right (by omega) (by omega)
    omega
  have hbit : q.testBit k = true := by
    rw [Nat.testBit_to_div_mod]
    have h1 : q / 2 ^ k = 1 := by
      apply Nat.div_eq_of_lt_le
      · simpa using hlow
      · have h2 : (1 + 1) * 2 ^ k = 2 ^ (k + 1) := by
          rw [Nat.pow_succ, Nat.mul_comm]
        omega
    simp [h1]
  set q' := q ^^^ 2 ^ k with hq'
  have hq'lt : q' < 2 ^ k := by
    apply Nat.lt_pow_two_of_testBit
    intro i hi
    rcases Nat.eq_or_lt_of_le hi with rfl | hlt
    · simp [hq', Nat.testBit_xor, hbit, Nat.testBit_two_pow_self]
    · have h1 : q.testBit i = false :=
        Nat.testBit_lt_two_pow (Nat.lt_of_lt_of_le hhigh (Nat.pow_le_pow_right (by omega) hlt))
      have h2 : (2 ^ k).testBit i = false := Nat.testBit_two_pow_of_ne (by omega)
      simp [hq', Nat.testBit_xor, h1, h2]
  have hqeq : q = q' ^^^ 2 ^ k := by
    rw [hq', Nat.xor_assoc, Nat.xor_self, Nat.xor_zero]
  have hsplit : clmul q gfM = clmul q' gfM ^^^ gfM <<< k := by
    rw [hqeq, clmul_xor_left, clmul_two_pow_left _ hk16]
  have hself : (gfM <<< k).testBit (k + 8) = true := by
    rw [Nat.testBit_shiftLeft]
    have h8 : k + 8 - k = 8 := by omega
    have : gfM.testBit 8 = true := by decide
    simp [h8, this]
  have hsmall : clmul q' gfM < 2 ^ (k + 8) := by
    unfold clmul
    apply xorSum_lt_two_pow
    intro x hx
    rw [List.mem_map] at hx
    obtain ⟨i, hi, hxi⟩ := hx
    subst hxi
    rcases Decidable.em (q'.testBit i) with ht | ht
    · have hik : i < k := by
        by_contra hik
        have : q'.testBit i = false :=
          Nat.testBit_lt_two_pow
            (Nat.lt_of_lt_of_le hq'lt (Nat.pow_le_pow_right (by omega) (by omega)))
        simp [this] at ht
      rw [if_pos ht, Nat.shiftLeft_eq]
      have h9 : gfM < 2 ^ 9 := by decide
      have h1 : gfM * 2 ^ i < 2 ^ (9 + i) := by
        rw [Nat.pow_add]
        exact (Nat.mul_lt_mul_right (Nat.two_pow_pos i)).mpr h9
      have h2 : (2 : Nat) ^ (9 + i) ≤ 2 ^ (k + 8) :=
        Nat.pow_le_pow_right (by omega) (by omega)
      omega
    · rw [if_neg ht]
      exact Nat.two_pow_pos _
  have : (clmul q' gfM ^^^ gfM <<< k).testBit (k + 8) = true := by
    rw [Nat.testBit_xor, hself, Nat.testBit_lt_two_pow hsmall]
    rfl
  rw [hsplit]
  have hge := Nat.testBit_implies_ge this
  have h2 : (2 : Nat) ^ 8 ≤ 2 ^ (k + 8) := Nat.pow_le_pow_right (by omega) (by omega)
  omega

/-- Residues below `2 ^ 8` that differ by a multiple of the modulus coincide. -/
theorem residue_unique {x y q : Nat} (hx : x < 2 ^ 8) (hy : y < 2 ^ 8) (hq : q < 2 ^ 16)
    (h : x ^^^ y = clmul q gfM) : x = y := by
  rcases Decidable.em (q = 0) with rfl | hq0
  · rw [clmul_zero_left] at h
    have h2 : x ^^^ y ^^^ y = 0 ^^^ y := by rw [h]
    rw [Nat.xor_assoc, Nat.xor_self, Nat.xor_zero, Nat.zero_xor] at h2
    exact h2
  · have hge := clmul_gfM_ge hq hq0
    have hlt : x ^^^ y < 2 ^ 8 := Nat.xor_lt_two_pow hx hy
    omega

theorem clmul_bytes_lt {a b : Nat} (ha : a < 2 ^ 8) (hb : b < 2 ^ 8) : clmul a b < 2 ^ 15 := by
  unfold clmul
  apply xorSum_lt_two_pow
  intro x hx
  rw [List.mem_map] at hx
  obtain ⟨i, hi, hxi⟩ := hx
  subst hxi
  rcases Decidable.em (a.testBit i) with ht | ht
  · have hik : i < 8 := by
      by_contra hik
      have : a.testBit i = false :=
        Nat.testBit_lt_two_pow (Nat.lt_of_lt_of_le ha (Nat.pow_le_pow_right (by omega) (by omega)))
      simp [this] at ht
    rw [if_pos ht, Nat.shiftLeft_eq]
    have h1 : b * 2 ^ i < 2 ^ (8 + i) := by
      rw [Nat.pow_add]
      exact (Nat.mul_lt_mul_right (Nat.two_pow_pos i)).mpr hb
    have h2 : (2 : Nat) ^ (8 + i) ≤ 2 ^ 15 := Nat.pow_le_pow_right (by omega) (by omega)
    omega
  · rw [if_neg ht]
    exact Nat.two_pow_pos _

/-- Modelled from the spec: multiplication of two bytes in GF(2^8), carry-less
multiplication followed by reduction modulo 0x11D (§4.1). -/
def gmulv (a b : Nat) : Nat := gmod (clmul a b)

theorem gmulv_lt {a b : Nat} (ha : a < 2 ^ 8) (hb : b < 2 ^ 8) : gmulv a b < 2 ^ 8 :=
  gmod_lt (clmul_bytes_lt ha hb)

theorem gmod_eq_of_equiv {x y : Nat} (hx : x < 2 ^ 15) (hy : y < 2 ^ 15)
    (h : ∃ q, q < 2 ^ 16 ∧ x ^^^ y = clmul q gfM) : gmod x = gmod y := by
  obtain ⟨q, hq, e⟩ := h
  obtain ⟨d1, hd1, e1⟩ := gmod_equiv x
  obtain ⟨d2, hd2, e2⟩ := gmod_equiv y
  have step1 := equiv_comp e e1
  have e2' : y ^^^ gmod y = clmul d2 gfM := by rw [Nat.xor_comm]; exact e2
  have step2 := equiv_comp e2' step1
  exact residue_unique (gmod_lt hx) (gmod_lt hy)
    (Nat.xor_lt_two_pow (Nat.xor_lt_two_pow (by omega) hq) (by omega)) step2

theorem gmod_id {x : Nat} (hx : x < 2 ^ 8) : gmod x = x := by
  obtain ⟨d, hd, e⟩ := gmod_equiv x
  exact residue_unique (gmod_lt (by omega)) hx (by omega) e

theorem gmod_xor {u v : Nat} (hu : u < 2 ^ 15) (hv : v < 2 ^ 15) :
    gmod (u ^^^ v) = gmod u ^^^ gmod v := by
  obtain ⟨d0, hd0, e0⟩ := gmod_equiv (u ^^^ v)
  obtain ⟨d1, hd1, e1⟩ := gmod_equiv u
  obtain ⟨d2, hd2, e2⟩ := gmod_equiv v
  have hmix : (gmod u ^^^ gmod v) ^^^ (u ^^^ v) = clmul (d1 ^^^ d2) gfM := by
    rw [clmul_xor_left, ← e1, ← e2]
    apply Nat.eq_of_testBit_eq
    intro i
    simp only [Nat.testBit_xor]
    cases gmod u |>.testBit i <;> cases gmod v |>.testBit i <;>
      cases u.testBit i <;> cases v.testBit i <;> rfl
  have e0' : (u ^^^ v) ^^^ (gmod u ^^^ gmod v) = clmul (d1 ^^^ d2) gfM := by
    rw [Nat.xor_comm]; exact hmix
  have step := equiv_comp e0' e0
  have g1 : gmod u < 2 ^ 8 := gmod_lt hu
  have g2 : gmod v < 2 ^ 8 := gmod_lt hv
  have hq : d0 ^^^ (d1 ^^^ d2) < 2 ^ 16 := by
    have := Nat.xor_lt_two_pow hd0 (Nat.xor_lt_two_pow hd1 hd2)
    omega
  exact residue_unique (gmod_lt (Nat.xor_lt_two_pow hu hv))
    (Nat.xor_lt_two_pow g1 g2) hq step

theorem gmulv_comm {a b : Nat} (ha : a < 2 ^ 16) (hb : b < 2 ^ 16) :
    gmulv a b = gmulv b a := by
  unfold gmulv
  rw [clmul_comm ha hb]

theorem gmulv_zero_left (b : Nat) : gmulv 0 b = 0 := by
  unfold gmulv
  rw [clmul_zero_left]
  exact gmod_id (by omega)

theorem gmulv_zero_right (a : Nat) : gmulv a 0 = 0 := by
  unfold gmulv
  rw [clmul_zero_right]
  exact gmod_id (by omega)

theorem gmulv_one_left {b : Nat} (hb : b < 2 ^ 8) : gmulv 1 b = b := by
  unfold gmulv
  have h1 : clmul 1 b = b := by
    have := clmul_two_pow_left (k := 0) b (by omega)
    simpa using this
  rw [h1]
  exact gmod_id hb

theorem gmulv_xor_right {a b c : Nat} (ha : a < 2 ^ 8) (hb : b < 2 ^ 8) (hc : c < 2 ^ 8) :
    gmulv a (b ^^^ c) = gmulv a b ^^^ gmulv a c := by
  unfold gmulv
  rw [clmul_xor_right]
  exact gmod_xor (clmul_bytes_lt ha hb) (clmul_bytes_lt ha hc)

theorem gmulv_assoc {a b c : Nat} (ha : a < 2 ^ 8) (hb : b < 2 ^ 8) (hc : c < 2 ^ 8) :
    gmulv (gmulv a b) c = gmulv a (gmulv b c) := by
  have hM : gfM < 2 ^ 9 := by decide
  unfold gmulv
  apply gmod_eq_of_equiv (clmul_bytes_lt (gmod_lt (clmul_bytes_lt ha hb)) hc)
    (clmul_bytes_lt ha (gmod_lt (clmul_bytes_lt hb hc)))
  obtain ⟨d, hd, eP⟩ := gmod_equiv (clmul a b)
  obtain ⟨e, he, eQ⟩ := gmod_equiv (clmul b c)
  have h1 : clmul (gmod (clmul a b)) c ^^^ clmul (clmul a b) c = clmul (clmul d c) gfM := by
    rw [← clmul_xor_left, eP]
    rw [clmul_assoc (p := 8) (q := 9) hd hM (by omega) (by omega),
      clmul_comm (by omega : gfM < 2 ^ 16) (by omega : c < 2 ^ 16),
      ← clmul_assoc (p := 8) (q := 8) hd hc (by omega) (by omega)]
  have h2 : clmul a (gmod (clmul b c)) ^^^ clmul a (clmul b c) = clmul (clmul a e) gfM := by
    rw [← clmul_xor_right, eQ]
    rw [← clmul_assoc (p := 8) (q := 8) ha he (by omega) (by omega)]
  have hT : clmul (clmul a b) c = clmul a (clmul b c) :=
    clmul_assoc (p := 8) (q := 8) ha hb (by omega) (by omega)
  have h1' : clmul (clmul a b) c ^^^ clmul a (gmod (clmul b c)) = clmul (clmul a e) gfM := by
    rw [hT, Nat.xor_comm]
    exact h2
  have step := equiv_comp h1' h1
  refine ⟨clmul d c ^^^ clmul a e, ?_, step⟩
  have hdc : clmul d c < 2 ^ 16 := clmul_lt_two_pow hd hc
  have hae : clmul a e < 2 ^ 16 := clmul_lt_two_pow ha he
  exact Nat.xor_lt_two_pow hdc hae

/-- The GF(2^8) element type of the `gf256` crate, as used by `src/gf256.rs`:
a single byte with carry-less arithmetic modulo 0x11D.  Modelled from the
spec (§4.1); the crate itself is an external dependency. -/
structure gf256 where
  val : Nat
  isLt : val < 2 ^ 8
deriving DecidableEq

theorem gf256.ext {a b : gf256} (h : a.val = b.val) : a = b := by
  cases a
  cases b
  simpa using h

instance : Zero gf256 := ⟨⟨0, by decide⟩⟩

instance : One gf256 := ⟨⟨1, by decide⟩⟩

instance : Add gf256 := ⟨fun a b => ⟨a.val ^^^ b.val, Nat.xor_lt_two_pow a.isLt b.isLt⟩⟩

instance : Mul gf256 := ⟨fun a b => ⟨gmulv a.val b.val, gmulv_lt a.isLt b.isLt⟩⟩

instance : Neg gf256 := ⟨fun a => a⟩

instance : CommRing gf256 where
  add := (· + ·)
  zero := 0
  neg := Neg.neg
  mul := (· * ·)
  one := 1
  nsmul := nsmulRec
  zsmul := zsmulRec
  add_assoc a b c := gf256.ext (Nat.xor_assoc _ _ _)
  zero_add a := gf256.ext (Nat.zero_xor _)
  add_zero a := gf256.ext (Nat.xor_zero _)
  add_comm a b := gf256.ext (Nat.xor_comm _ _)
  neg_add_cancel a := gf256.ext (Nat.xor_self _)
  mul_assoc a b c := gf256.ext (gmulv_assoc a.isLt b.isLt c.isLt)
  one_mul a := gf256.ext (gmulv_one_left a.isLt)
  mul_one a := gf256.ext (by
    show gmulv a.val (1 : gf256).val = a.val
    rw [gmulv_comm (by have := a.isLt; omega) (by decide)]
    exact gmulv_one_left a.isLt)
  mul_comm a b := gf256.ext
    (gmulv_comm (by have := a.isLt; omega) (by have := b.isLt; omega))
  left_distrib a b c := gf256.ext (gmulv_xor_right a.isLt b.isLt c.isLt)
  right_distrib a b c := gf256.ext (by
    have h1 := gmulv_comm (a := a.val ^^^ b.val) (b := c.val)
      (by have := Nat.xor_lt_two_pow a.isLt b.isLt; omega) (by have := c.isLt; omega)
    have h2 := gmulv_comm (a := a.val) (b := c.val)
      (by have := a.isLt; omega) (by have := c.isLt; omega)
    have h3 := gmulv_comm (a := b.val) (b := c.val)
      (by have := b.isLt; omega) (by have := c.isLt; omega)
    show gmulv (a.val ^^^ b.val) c.val = gmulv a.val c.val ^^^ gmulv b.val c.val
    rw [h1, h2, h3]
    exact gmulv_xor_right c.isLt a.isLt b.isLt)
  zero_mul a := gf256.ext (gmulv_zero_left _)
  mul_zero a := gf256.ext (gmulv_zero_right _)

theorem gf256.val_add (a b : gf256) : (a + b).val = a.val ^^^ b.val := rfl

theorem gf256.val_mul (a b : gf256) : (a * b).val = gmulv a.val b.val := rfl

theorem gf256.val_zero : (0 : gf256).val = 0 := rfl

theorem gf256.val_one : (1 : gf256).val = 1 := rfl

theorem gf256.neg_eq (a : gf256) : -a = a := rfl

/-- Powers of the generator 0x02 of GF(2^8): entry `i` is `2^i` in the field.
Used only to prove that every nonzero element has the inverse `a ^ 254`. -/
def gfTable : List Nat := [
    1, 2, 4, 8, 16, 32, 64, 128, 29, 58, 116, 232, 205, 135, 19,
    38, 76, 152, 45, 90, 180, 117, 234, 201, 143, 3, 6, 12, 24, 48,
    96, 192, 157, 39, 78, 156, 37, 74, 148, 53, 106, 212, 181, 119, 238,
    193, 159, 35, 70, 140, 5, 10, 20, 40, 80, 160, 93, 186, 105, 210,
    185, 111, 222, 161, 95, 190, 97, 194, 153, 47, 94, 188, 101, 202, 137,
    15, 30, 60, 120, 240, 253, 231, 211, 187, 107, 214, 177, 127, 254, 225,
    223, 163, 91, 182, 113, 226, 217, 175, 67, 134, 17, 34, 68, 136, 13,
    26, 52, 104, 208, 189, 103, 206, 129, 31, 62, 124, 248, 237, 199, 147,
    59, 118, 236, 197, 151, 51, 102, 204, 133, 23, 46, 92, 184, 109, 218,
    169, 79, 158, 33, 66, 132, 21, 42, 84, 168, 77, 154, 41, 82, 164,
    85, 170, 73, 146, 57, 114, 228, 213, 183, 115, 230, 209, 191, 99, 198,
    145, 63, 126, 252, 229, 215, 179, 123, 246, 241, 255, 227, 219, 171, 75,
    150, 49, 98, 196, 149, 55, 110, 220, 165, 87, 174, 65, 130, 25, 50,
    100, 200, 141, 7, 14, 28, 56, 112, 224, 221, 167, 83, 166, 81, 162,
    89, 178, 121, 242, 249, 239, 195, 155, 43, 86, 172, 69, 138, 9, 18,
    36, 72, 144, 61, 122, 244, 245, 247, 243, 251, 235, 203, 139, 11, 22,
    44, 88, 176, 125, 250, 233, 207, 131, 27, 54, 108, 216, 173, 71, 142]

set_option maxRecDepth 4000 in
theorem gfTable_chain :
    ((List.range 254).all
      fun i => gfTable.getD (i + 1) 0 == gmulv 2 (gfTable.getD i 0)) = true := by decide

set_option maxRecDepth 4000 in
theorem gfTable_cover :
    ((List.range 256).all fun v => (v == 0) || gfTable.contains v) = true := by decide

theorem gfTable_last : gmulv 2 (gfTable.getD 254 0) = 1 := by decide

/-- The field element 2, generator of the multiplicative group. -/
def gfTwo : gf256 := ⟨2, by decide⟩

theorem gfTwo_pow_val : ∀ i, i < 255 → (gfTwo ^ i).val = gfTable.getD i 0 := by
  intro i
  induction i with
  | zero =>
      intro _
      rw [pow_zero]
      rfl
  | succ i ih =>
      intro hi
      rw [pow_succ, gf256.val_mul]
      have hchain := List.all_eq_true.mp gfTable_chain i (List.mem_range.mpr (by omega))
      have hchain' : gfTable.getD (i + 1) 0 = gmulv 2 (gfTable.getD i 0) :=
        eq_of_beq hchain
      rw [hchain', ← ih (by omega)]
      have h2 : gfTwo.val = 2 := rfl
      rw [h2]
      exact gmulv_comm (by have := (gfTwo ^ i).isLt; omega) (by decide)

set_option maxRecDepth 4000 in
theorem gfTwo_pow_card : gfTwo ^ 255 = 1 := by
  apply gf256.ext
  rw [pow_succ, gf256.val_mul, gfTwo_pow_val 254 (by omega), gf256.val_one]
  have h2 : gfTwo.val = 2 := rfl
  rw [h2, gmulv_comm (by decide) (by decide)]
  exact gfTable_last

set_option maxRecDepth 4000 in
theorem gf256_mul_inv_cancel (a : gf256) (h : a ≠ 0) : a * a ^ 254 = 1 := by
  have hv0 : a.val ≠ 0 := by
    intro hv
    exact h (gf256.ext hv)
  have hcover := List.all_eq_true.mp gfTable_cover a.val (List.mem_range.mpr a.isLt)
  have hmem : a.val ∈ gfTable := by
    rcases Bool.or_eq_true_iff.mp hcover with h1 | h1
    · exact absurd (eq_of_beq h1) hv0
    · exact List.mem_of_elem_eq_true h1
  obtain ⟨i, hilen, hival⟩ := List.mem_iff_getElem.mp hmem
  have hi255 : i < 255 := by
    have : gfTable.length = 255 := by decide
    omega
  have haeq : a = gfTwo ^ i := by
    apply gf256.ext
    rw [gfTwo_pow_val i hi255, List.getD_eq_getElem gfTable 0 hilen, hival]
  rw [haeq, ← pow_mul, ← pow_add]
  have he : i + i * 254 = 255 * i := by ring
  rw [he, pow_mul, gfTwo_pow_card, one_pow]

/-- Modelled from the spec: division in GF(2^8) is `a * b ^ 254` (§4.1), so the
inverse is `b ^ 254`; `0⁻¹ = 0` mirrors the convention that the crate never
divides by zero on the paths exercised here. -/
instance : Field gf256 where
  inv a := a ^ 254
  exists_pair_ne := ⟨0, 1, by decide⟩
  mul_inv_cancel := gf256_mul_inv_cancel
  inv_zero := zero_pow (by omega)
  nnqsmul := _
  qsmul := _

/-- The `gf256(id)` byte constructor: in the Rust sources share ids are `u8`
values lifted into the field, so the embedding reduces modulo 256. -/
def gfOfId (n : Nat) : gf256 := ⟨n % 2 ^ 8, Nat.mod_lt _ (by decide)⟩

/-- From `src/shamir.rs` (`ShamirPolynomial::random`): coefficient 0 is the
secret, the remaining `degree` coefficients are drawn from the RNG.  The
stateful RNG is embedded as a stream `rng : Nat → gf256` of successive
draws; the code draws uniformly from `[1, 255]`, and every theorem below
quantifies over all streams, which subsumes that distribution. -/
def ShamirPolynomial.random (secret : gf256) (degree : Nat) (rng : Nat → gf256) : List gf256 :=
  secret :: (List.range degree).map rng

/-- From `src/shamir.rs` (`ShamirPolynomial::evaluate`): Horner evaluation,
folding over the coefficients from highest to lowest degree. -/
def ShamirPolynomial.evaluate (f : List gf256) (x : gf256) : gf256 :=
  f.reverse.foldl (fun y c => y * x + c) 0

/-- From `src/gf256.rs` (`gf256::split`): shares `(id, f(id))` for
`id = 1..=n` over a fresh random polynomial of degree `t - 1`.  The source
asserts `0 < t ≤ n`; the embedding is total and every claim carries those
bounds as hypotheses. -/
def gf256.split (secret : gf256) (n t : Nat) (rng : Nat → gf256) : List (Nat × gf256) :=
  (List.range n).map fun k =>
    (k + 1, ShamirPolynomial.evaluate (ShamirPolynomial.random secret (t - 1) rng) (gfOfId (k + 1)))

/-- From `src/gf256.rs` (`gf256::reconstruct`): Lagrange interpolation at
x = 0, a double indexed loop with `li *= x1 / (x0 + x1)` for `j ≠ i` and
`y += li * y0`.  No validation of ids is performed. -/
def gf256.reconstruct (shares : List (Nat × gf256)) : gf256 :=
  shares.enum.foldl
    (fun y p =>
      let li := shares.enum.foldl
        (fun li q =>
          if p.1 ≠ q.1 then li * (gfOfId q.2.1 / (gfOfId p.2.1 + gfOfId q.2.1)) else li)
        1
      y + li * p.2.2)
    0

/-- From `src/shamir.rs` (`FieldArray::split`): one independent scalar split
per array element (element `j` uses its own stream `rng j`), transposed into
one share of `N` bytes per id.  In the source the per-id grouping goes
through a `HashMap` whose iteration order is unspecified and is then sorted
by ascending id; since the scalar splits emit exactly the keys `1..=n`, the
sorted result is the ascending list modelled directly here, with the value
vector of id `k` holding the element evaluations in array order. -/
def FieldArray.split (secret : List gf256) (n t : Nat) (rng : Nat → Nat → gf256) :
    List (Nat × List gf256) :=
  (List.range n).map fun k =>
    (k + 1, secret.enum.map fun js =>
      ShamirPolynomial.evaluate (ShamirPolynomial.random js.2 (t - 1) (rng js.1)) (gfOfId (k + 1)))

/-- From `src/shamir.rs` (`FieldArray::reconstruct`): element-wise scalar
reconstruction, `array::from_fn(|i| ...)` over the `N` byte positions; the
source indexes `secret.0[i]`, embedded as `getD i 0`. -/
def FieldArray.reconstruct (shares : List (Nat × List gf256)) (N : Nat) : List gf256 :=
  (List.range N).map fun i =>
    gf256.reconstruct (shares.map fun s => (s.1, s.2.getD i 0))

/-- Proof-side view of a coefficient list (low degree first) as a Mathlib
polynomial. -/
noncomputable def polyOfCoeffs (l : List gf256) : Polynomial gf256 :=
  l.foldr (fun c p => Polynomial.C c + Polynomial.X * p) 0

theorem polyOfCoeffs_nil : polyOfCoeffs [] = 0 := rfl

theorem polyOfCoeffs_cons (c : gf256) (l : List gf256) :
    polyOfCoeffs (c :: l) = Polynomial.C c + Polynomial.X * polyOfCoeffs l := rfl

theorem evaluate_cons (c : gf256) (l : List gf256) (x : gf256) :
    ShamirPolynomial.evaluate (c :: l) x = ShamirPolynomial.evaluate l x * x + c := by
  unfold ShamirPolynomial.evaluate
  rw [List.reverse_cons, List.foldl_append]
  rfl

theorem evaluate_eq_eval (l : List gf256) (x : gf256) :
    ShamirPolynomial.evaluate l x = (polyOfCoeffs l).eval x := by
  induction l with
  | nil =>
      show (0 : gf256) = Polynomial.eval x 0
      rw [Polynomial.eval_zero]
  | cons c l ih =>
      rw [evaluate_cons, polyOfCoeffs_cons, Polynomial.eval_add, Polynomial.eval_C,
        Polynomial.eval_mul, Polynomial.eval_X, ih]
      ring

theorem polyOfCoeffs_eval_zero (c : gf256) (l : List gf256) :
    (polyOfCoeffs (c :: l)).eval 0 = c := by
  rw [polyOfCoeffs_cons, Polynomial.eval_add, Polynomial.eval_C, Polynomial.eval_mul,
    Polynomial.eval_X, zero_mul, add_zero]

theorem polyOfCoeffs_coeff_eq_zero :
    ∀ (l : List gf256) (m : Nat), l.length ≤ m → (polyOfCoeffs l).coeff m = 0 := by
  intro l
  induction l with
  | nil =>
      intro m _
      rw [polyOfCoeffs_nil]
      simp
  | cons c l ih =>
      intro m hm
      rcases m with _ | m'
      · simp at hm
      · rw [polyOfCoeffs_cons, Polynomial.coeff_add, Polynomial.coeff_X_mul,
          Polynomial.coeff_C, ih m' (by simpa using hm)]
        simp

theorem polyOfCoeffs_degree_lt (l : List gf256) :
    (polyOfCoeffs l).degree < (l.length : Nat) := by
  apply Polynomial.degree_lt_iff_coeff_zero _ _ |>.mpr
  intro m hm
  apply polyOfCoeffs_coeff_eq_zero
  exact_mod_cast hm

theorem foldl_add_eq_sum {α : Type} (f : α → gf256) :
    ∀ (l : List α) (a : gf256), l.foldl (fun y p => y + f p) a = a + (l.map f).sum := by
  intro l
  induction l with
  | nil =>
      intro a
      simp
  | cons x l ih =>
      intro a
      rw [List.foldl_cons, ih, List.map_cons, List.sum_cons]
      ring

theorem foldl_mul_if_eq_prod {α : Type} (c : α → Prop) [DecidablePred c] (f : α → gf256) :
    ∀ (l : List α) (a : gf256),
      l.foldl (fun y q => if c q then y * f q else y) a
        = a * ((l.filter fun q => decide (c q)).map f).prod := by
  intro l
  induction l with
  | nil =>
      intro a
      simp
  | cons x l ih =>
      intro a
      rw [List.foldl_cons, List.filter_cons]
      rcases Decidable.em (c x) with h | h
      · rw [if_pos h, ih, if_pos (by simpa using h), List.map_cons, List.prod_cons]
        ring
      · rw [if_neg h, ih, if_neg (by simpa using h)]

theorem enumFrom_filter_lt {α : Type} :
    ∀ (l : List α) (m k : Nat), k < m →
      ((l.enumFrom m).filter fun q => decide (k ≠ q.1)) = l.enumFrom m := by
  intro l
  induction l with
  | nil =>
      intro m k _
      rfl
  | cons x l ih =>
      intro m k hk
      rw [List.enumFrom_cons, List.filter_cons]
      have hne : k ≠ m := by omega
      rw [if_pos (by simpa using hne), ih (m + 1) k (by omega)]

theorem enumFrom_filter_ne_map_snd {α : Type} :
    ∀ (l : List α) (n i : Nat),
      (((l.enumFrom n).filter fun q => decide (n + i ≠ q.1)).map Prod.snd) = l.eraseIdx i := by
  intro l
  induction l with
  | nil =>
      intro n i
      rfl
  | cons x l ih =>
      intro n i
      rw [List.enumFrom_cons, List.filter_cons]
      rcases i with _ | j
      · have hq : ¬ ((n + 0 : Nat) ≠ (n, x).1) := by simp
        rw [if_neg (by simpa using hq)]
        simp only [Nat.add_zero]
        rw [enumFrom_filter_lt l (n + 1) n (by omega), List.enumFrom_map_snd]
        rfl
      · have hq : (n + (j + 1) : Nat) ≠ (n, x).1 := by simp
        rw [if_pos (by simpa using hq), List.map_cons]
        have hn : n + (j + 1) = (n + 1) + j := by omega
        rw [hn, ih (n + 1) j]
        rfl

theorem eraseIdx_eq_erase_of_nodup {α : Type} [BEq α] [LawfulBEq α] :
    ∀ (l : List α) (i : Nat) (s : α), l.Nodup → l.get? i = some s →
      l.eraseIdx i = l.erase s := by
  intro l
  induction l with
  | nil =>
      intro i s _ h
      simp at h
  | cons a l ih =>
      intro i s hnd h
      rcases i with _ | j
      · simp at h
        subst h
        rw [List.eraseIdx_cons_zero, List.erase_cons_head]
      · rw [List.get?_cons_succ] at h
        have hs : s ∈ l := List.get?_mem h
        have hna : a ∉ l := (List.nodup_cons.mp hnd).1
        have hne : a ≠ s := by
          intro heq
          exact hna (heq ▸ hs)
        rw [List.eraseIdx_cons_succ, List.erase_cons_tail (by simpa using hne),
          ih j s (List.nodup_cons.mp hnd).2 h]

theorem enum_filter_ne_map_snd {α : Type} (l : List α) (i : Nat) :
    (((l.enum.filter fun q => decide (i ≠ q.1)).map Prod.snd)) = l.eraseIdx i := by
  have h := enumFrom_filter_ne_map_snd l 0 i
  simpa using h

theorem reconstruct_eq_enum_sum (l : List (Nat × gf256)) :
    gf256.reconstruct l =
      (l.enum.map fun p =>
        (((l.eraseIdx p.1).map fun q => gfOfId q.1 / (gfOfId p.2.1 + gfOfId q.1)).prod)
          * p.2.2).sum := by
  have h0 : gf256.reconstruct l = l.enum.foldl
      (fun y p => y +
        (l.enum.foldl
          (fun li q => if p.1 ≠ q.1 then li * (gfOfId q.2.1 / (gfOfId p.2.1 + gfOfId q.2.1))
            else li) 1) * p.2.2) 0 := rfl
  rw [h0, foldl_add_eq_sum
    (fun p => (l.enum.foldl
      (fun li q => if p.1 ≠ q.1 then li * (gfOfId q.2.1 / (gfOfId p.2.1 + gfOfId q.2.1))
        else li) 1) * p.2.2) l.enum 0, zero_add]
  congr 1
  apply List.map_congr_left
  intro p _
  rw [foldl_mul_if_eq_prod (fun q => p.1 ≠ q.1)
    (fun q => gfOfId q.2.1 / (gfOfId p.2.1 + gfOfId q.2.1)) l.enum 1, one_mul]
  congr 1
  have hm : (l.enum.filter fun q => decide (p.1 ≠ q.1)).map
      (fun q => gfOfId q.2.1 / (gfOfId p.2.1 + gfOfId q.2.1)) =
      ((l.enum.filter fun q => decide (p.1 ≠ q.1)).map Prod.snd).map
        (fun q => gfOfId q.1 / (gfOfId p.2.1 + gfOfId q.1)) := by
    rw [List.map_map]
    rfl
  rw [hm, enum_filter_ne_map_snd]

theorem reconstruct_nodup_eq (l : List (Nat × gf256)) (hnd : l.Nodup) :
    gf256.reconstruct l =
      (l.map fun s =>
        (((l.erase s).map fun q => gfOfId q.1 / (gfOfId s.1 + gfOfId q.1)).prod) * s.2).sum := by
  rw [reconstruct_eq_enum_sum]
  congr 1
  have hcong : l.enum.map (fun p =>
      (((l.eraseIdx p.1).map fun q => gfOfId q.1 / (gfOfId p.2.1 + gfOfId q.1)).prod) * p.2.2) =
      l.enum.map ((fun s =>
        (((l.erase s).map fun q => gfOfId q.1 / (gfOfId s.1 + gfOfId q.1)).prod) * s.2)
          ∘ Prod.snd) := by
    apply List.map_congr_left
    intro p hp
    have hget : l.get? p.1 = some p.2 := List.mem_enum_iff_get?.mp hp
    have he : l.eraseIdx p.1 = l.erase p.2 := eraseIdx_eq_erase_of_nodup l p.1 p.2 hnd hget
    simp only [Function.comp]
    rw [he]
  rw [hcong, ← List.map_map, List.enum_map_snd]

theorem toFinset_erase_of_nodup {α : Type} [BEq α] [LawfulBEq α] [DecidableEq α]
    (l : List α) (hnd : l.Nodup) (a : α) : (l.erase a).toFinset = l.toFinset.erase a := by
  ext x
  rw [List.mem_toFinset, Finset.mem_erase, List.Nodup.mem_erase_iff hnd, List.mem_toFinset]

theorem reconstruct_eq_finset_sum (l : List (Nat × gf256)) (r : Nat → gf256)
    (hr : ∀ p ∈ l, p.2 = r p.1) (hnd : (l.map Prod.fst).Nodup) :
    gf256.reconstruct l =
      ∑ i ∈ (l.map Prod.fst).toFinset, r i *
        ∏ j ∈ ((l.map Prod.fst).toFinset).erase i, (gfOfId j / (gfOfId i + gfOfId j)) := by
  have hpairs : l.Nodup := hnd.of_map
  rw [reconstruct_nodup_eq l hpairs]
  rw [← List.sum_toFinset _ hpairs]
  have hinj : Function.Injective (fun i : Nat => (i, r i)) := by
    intro a b h
    simpa using congrArg Prod.fst h
  have himg : l.toFinset = ((l.map Prod.fst).toFinset).image (fun i => (i, r i)) := by
    ext p
    rw [List.mem_toFinset, Finset.mem_image]
    constructor
    · intro hp
      refine ⟨p.1, ?_, ?_⟩
      · rw [List.mem_toFinset, List.mem_map]
        exact ⟨p, hp, rfl⟩
      · have h2 := hr p hp
        apply Prod.ext
        · rfl
        · rw [← h2]
    · rintro ⟨i, hi, hip⟩
      rw [List.mem_toFinset, List.mem_map] at hi
      obtain ⟨q, hq, hq1⟩ := hi
      have h2 := hr q hq
      have : q = (i, r i) := by
        apply Prod.ext
        · exact hq1
        · rw [h2, hq1]
      rw [← hip, ← this]
      exact hq
  rw [himg, Finset.sum_image (fun a _ b _ h => hinj h)]
  apply Finset.sum_congr rfl
  intro i hi
  rw [mul_comm]
  congr 1
  have hne : (l.erase (i, r i)).Nodup := hpairs.erase _
  rw [← List.prod_toFinset _ hne, toFinset_erase_of_nodup l hpairs, himg,
    ← Finset.image_erase hinj, Finset.prod_image (fun a _ b _ h => hinj h)]

theorem gf256_sub_eq_add (a b : gf256) : a - b = a + b := by
  rw [sub_eq_add_neg, gf256.neg_eq]

theorem eval_zero_basisDivisor (x y : gf256) :
    Polynomial.eval 0 (Lagrange.basisDivisor x y) = y / (x + y) := by
  unfold Lagrange.basisDivisor
  rw [Polynomial.eval_mul, Polynomial.eval_C, Polynomial.eval_sub, Polynomial.eval_X,
    Polynomial.eval_C, zero_sub, neg_eq_iff_eq_neg.mpr (gf256.neg_eq y).symm]
  rw [gf256_sub_eq_add, div_eq_mul_inv, mul_comm]

theorem reconstruct_eq_eval_interpolate (l : List (Nat × gf256)) (r : Nat → gf256)
    (hr : ∀ p ∈ l, p.2 = r p.1) (hnd : (l.map Prod.fst).Nodup) :
    gf256.reconstruct l =
      Polynomial.eval 0 (Lagrange.interpolate (l.map Prod.fst).toFinset gfOfId r) := by
  rw [reconstruct_eq_finset_sum l r hr hnd, Lagrange.interpolate_apply,
    Polynomial.eval_finset_sum]
  apply Finset.sum_congr rfl
  intro i _
  rw [Polynomial.eval_mul, Polynomial.eval_C]
  congr 1
  unfold Lagrange.basis
  rw [Polynomial.eval_prod]
  apply Finset.prod_congr rfl
  intro j _
  exact (eval_zero_basisDivisor (gfOfId i) (gfOfId j)).symm

theorem gfOfId_injOn {S : Finset Nat} (h : ∀ i ∈ S, i < 256) :
    Set.InjOn gfOfId S := by
  intro a ha b hb hab
  have h1 : a % 2 ^ 8 = b % 2 ^ 8 := congrArg gf256.val hab
  have h2 : a < 256 := h a ha
  have h3 : b < 256 := h b hb
  rw [Nat.mod_eq_of_lt (by omega), Nat.mod_eq_of_lt (by omega)] at h1
  exact h1

/-- Core correctness of scalar Lagrange reconstruction: any list of at least
`deg + 1` distinct-id pairs `(id, f(gf(id)))` with ids below 256 recovers the
constant coefficient. -/
theorem reconstruct_points_eq_secret (coeffs : List gf256) (l : List (Nat × gf256))
    (hl : ∀ p ∈ l, p.1 < 256 ∧ p.2 = ShamirPolynomial.evaluate coeffs (gfOfId p.1))
    (hnd : (l.map Prod.fst).Nodup) (hlen : coeffs.length ≤ l.length) :
    gf256.reconstruct l = (polyOfCoeffs coeffs).eval 0 := by
  set r : Nat → gf256 := fun i => (polyOfCoeffs coeffs).eval (gfOfId i) with hrdef
  have hr : ∀ p ∈ l, p.2 = r p.1 := by
    intro p hp
    rw [(hl p hp).2, evaluate_eq_eval]
  rw [reconstruct_eq_eval_interpolate l r hr hnd]
  set S := (l.map Prod.fst).toFinset with hSdef
  have hmemlt : ∀ i ∈ S, i < 256 := by
    intro i hi
    rw [hSdef, List.mem_toFinset, List.mem_map] at hi
    obtain ⟨p, hp, hp1⟩ := hi
    rw [← hp1]
    exact (hl p hp).1
  have hcard : S.card = l.length := by
    rw [hSdef, List.toFinset_card_of_nodup hnd, List.length_map]
  have hdeg : (polyOfCoeffs coeffs).degree < (S.card : Nat) := by
    apply lt_of_lt_of_le (polyOfCoeffs_degree_lt coeffs)
    rw [hcard]
    exact_mod_cast hlen
  have hinj : Set.InjOn gfOfId S := gfOfId_injOn hmemlt
  have heq := Lagrange.eq_interpolate_of_eval_eq (r := r) hinj hdeg (fun i _ => rfl)
  rw [← heq]

theorem mem_split {secret : gf256} {n t : Nat} {rng : Nat → gf256} {p : Nat × gf256}
    (hp : p ∈ gf256.split secret n t rng) :
    1 ≤ p.1 ∧ p.1 ≤ n ∧
      p.2 = ShamirPolynomial.evaluate (ShamirPolynomial.random secret (t - 1) rng)
        (gfOfId p.1) := by
  unfold gf256.split at hp
  rw [List.mem_map] at hp
  obtain ⟨k, hk, hkp⟩ := hp
  rw [List.mem_range] at hk
  rw [← hkp]
  exact ⟨by omega, by omega, rfl⟩

theorem split_map_fst (secret : gf256) (n t : Nat) (rng : Nat → gf256) :
    (gf256.split secret n t rng).map Prod.fst = (List.range n).map (· + 1) := by
  unfold gf256.split
  rw [List.map_map]
  rfl

theorem range_succ_nodup (n : Nat) : ((List.range n).map (· + 1)).Nodup :=
  (List.nodup_range n).map (fun h => by omega)

theorem random_length (secret : gf256) (d : Nat) (rng : Nat → gf256) :
    (ShamirPolynomial.random secret d rng).length = d + 1 := by
  unfold ShamirPolynomial.random
  rw [List.length_cons, List.length_map, List.length_range]

/-- Scalar Shamir correctness: every sub-multiset of the split output with
distinct ids and at least `t` shares reconstructs the secret. -/
theorem scalar_reconstruct_correct (secret : gf256) (n t : Nat) (rng : Nat → gf256)
    (ht : 1 ≤ t) (hn : n ≤ 255) (sub : List (Nat × gf256))
    (hsub : ∀ p ∈ sub, p ∈ gf256.split secret n t rng)
    (hnd : (sub.map Prod.fst).Nodup) (hlen : t ≤ sub.length) :
    gf256.reconstruct sub = secret := by
  have h := reconstruct_points_eq_secret (ShamirPolynomial.random secret (t - 1) rng) sub
    (fun p hp => by
      obtain ⟨h1, h2, h3⟩ := mem_split (hsub p hp)
      exact ⟨by omega, h3⟩)
    hnd
    (by rw [random_length]; omega)
  rw [h]
  unfold ShamirPolynomial.random
  exact polyOfCoeffs_eval_zero secret _

theorem split_map_element (secret : List gf256) (n t : Nat) (rng : Nat → Nat → gf256)
    (i : Nat) (hi : i < secret.length) :
    (FieldArray.split secret n t rng).map (fun s => (s.1, s.2.getD i 0)) =
      gf256.split (secret.getD i 0) n t (rng i) := by
  unfold FieldArray.split gf256.split
  rw [List.map_map]
  apply List.map_congr_left
  intro k _
  simp only [Function.comp]
  congr 1
  have hlen : i < (secret.enum.map fun js =>
      ShamirPolynomial.evaluate (ShamirPolynomial.random js.2 (t - 1) (rng js.1))
        (gfOfId (k + 1))).length := by
    rw [List.length_map, List.enum_length]
    exact hi
  rw [List.getD_eq_getElem _ _ hlen, List.getElem_map, List.getElem_enum,
    List.getD_eq_getElem _ _ hi]

theorem map_range_getD (l : List gf256) :
    (List.range l.length).map (fun i => l.getD i 0) = l := by
  apply List.ext_getElem
  · rw [List.length_map, List.length_range]
  · intro i h1 h2
    rw [List.getElem_map, List.getElem_range, List.getD_eq_getElem _ _ h2]

/-- Array-level Shamir correctness, element-wise from the scalar result. -/
theorem array_reconstruct_correct (secret : List gf256) (n t : Nat) (rng : Nat → Nat → gf256)
    (ht : 1 ≤ t) (hn : n ≤ 255) (sub : List (Nat × List gf256))
    (hsub : ∀ p ∈ sub, p ∈ FieldArray.split secret n t rng)
    (hnd : (sub.map Prod.fst).Nodup) (hlen : t ≤ sub.length) :
    FieldArray.reconstruct sub secret.length = secret := by
  unfold FieldArray.reconstruct
  have hstep : ∀ i < secret.length,
      gf256.reconstruct (sub.map fun s => (s.1, s.2.getD i 0)) = secret.getD i 0 := by
    intro i hi
    apply scalar_reconstruct_correct (secret.getD i 0) n t (rng i) ht hn
    · intro q hq
      rw [List.mem_map] at hq
      obtain ⟨p, hp, hpq⟩ := hq
      rw [← split_map_element secret n t rng i hi, List.mem_map]
      exact ⟨p, hsub p hp, hpq⟩
    · rw [List.map_map]
      exact hnd
    · rw [List.length_map]
      exact hlen
  have hcong : (List.range secret.length).map
      (fun i => gf256.reconstruct (sub.map fun s => (s.1, s.2.getD i 0))) =
      (List.range secret.length).map (fun i => secret.getD i 0) := by
    apply List.map_congr_left
    intro i hi
    exact hstep i (List.mem_range.mp hi)
  rw [hcong, map_range_getD]

/-- C1: for every secret (a GF(2^8) element or a fixed-length array of them),
every `1 ≤ t ≤ n ≤ 255`, every RNG (modelled as arbitrary coefficient
streams), and every collection of at least `t` distinct-id shares taken from
the output of `split`, `reconstruct` applied to that collection returns the
original secret. -/
theorem claim_C1_split_then_reconstruct_roundtrip :
    (∀ (secret : gf256) (n t : Nat) (rng : Nat → gf256) (sub : List (Nat × gf256)),
      1 ≤ t → t ≤ n → n ≤ 255 →
      (∀ p ∈ sub, p ∈ gf256.split secret n t rng) →
      (sub.map Prod.fst).Nodup → t ≤ sub.length →
      gf256.reconstruct sub = secret) ∧
    (∀ (secret : List gf256) (n t : Nat) (rng : Nat → Nat → gf256)
      (sub : List (Nat × List gf256)),
      1 ≤ t → t ≤ n → n ≤ 255 →
      (∀ p ∈ sub, p ∈ FieldArray.split secret n t rng) →
      (sub.map Prod.fst).Nodup → t ≤ sub.length →
      FieldArray.reconstruct sub secret.length = secret) := by
  constructor
  · intro secret n t rng sub ht htn hn hsub hnd hlen
    exact scalar_reconstruct_correct secret n t rng ht hn sub hsub hnd hlen
  · intro secret n t rng sub ht htn hn hsub hnd hlen
    exact array_reconstruct_correct secret n t rng ht hn sub hsub hnd hlen

/-- Witness for C1 at a concrete instance. -/
theorem claim_C1_split_then_reconstruct_roundtrip_witness :
    gf256.reconstruct
        (gf256.split ⟨5, by decide⟩ 1 1 (fun _ => ⟨7, by decide⟩)) = ⟨5, by decide⟩ ∧
      FieldArray.reconstruct
        (FieldArray.split [⟨5, by decide⟩, ⟨9, by decide⟩] 1 1 (fun _ _ => ⟨7, by decide⟩))
        ([⟨5, by decide⟩, ⟨9, by decide⟩] : List gf256).length =
        [⟨5, by decide⟩, ⟨9, by decide⟩] := by
  constructor
  · exact claim_C1_split_then_reconstruct_roundtrip.1 ⟨5, by decide⟩ 1 1 (fun _ => ⟨7, by decide⟩)
      (gf256.split ⟨5, by decide⟩ 1 1 (fun _ => ⟨7, by decide⟩)) (by decide) (by decide)
      (by decide) (fun p h => h) (by decide) (by decide)
  · exact claim_C1_split_then_reconstruct_roundtrip.2 [⟨5, by decide⟩, ⟨9, by decide⟩] 1 1
      (fun _ _ => ⟨7, by decide⟩)
      (FieldArray.split [⟨5, by decide⟩, ⟨9, by decide⟩] 1 1 (fun _ _ => ⟨7, by decide⟩))
      (by decide) (by decide) (by decide) (fun p h => h) (by decide) (by decide)

/-- C3 counterexample: the code performs no id validation.  A share set
consisting of the single share `(0, 99)` is silently accepted and the value
99 is returned; no error is signalled, contradicting the claim that a share
with id 0 is rejected. -/
theorem claim_C3_counterexample :
    gf256.reconstruct [(0, (⟨99, by decide⟩ : gf256))] = ⟨99, by decide⟩ := by decide

/-- C3 amended: `reconstruct` performs no validation of share ids at all: a
singleton share set is processed silently and returns that share's secret,
whatever its id -- including the degenerate id 0. -/
theorem claim_C3_no_id_validation (id : Nat) (s : gf256) :
    gf256.reconstruct [(id, s)] = s := by
  show (0 : gf256) + 1 * s = s
  rw [zero_add, one_mul]

/-- C4 counterexample: `reconstruct` applied to the empty share set does not
signal an error; it silently returns the zero field element. -/
theorem claim_C4_counterexample :
    gf256.reconstruct ([] : List (Nat × gf256)) = 0 := rfl

/-- C4 amended: the core `reconstruct` has no emptiness check: the scalar
version returns 0 on the empty share set and the array version returns the
all-zero array (only the CLI argument parser requires at least one share). -/
theorem claim_C4_empty_returns_zero (N : Nat) :
    gf256.reconstruct ([] : List (Nat × gf256)) = 0 ∧
      FieldArray.reconstruct ([] : List (Nat × List gf256)) N = List.replicate N 0 := by
  constructor
  · rfl
  · unfold FieldArray.reconstruct
    have h : ∀ i ∈ List.range N,
        gf256.reconstruct (([] : List (Nat × List gf256)).map fun s => (s.1, s.2.getD i 0))
          = 0 := fun _ _ => rfl
    rw [List.map_congr_left h, List.map_const', List.length_range]

theorem arr_split_map_fst (secret : List gf256) (n t : Nat) (rng : Nat → Nat → gf256) :
    (FieldArray.split secret n t rng).map Prod.fst = (List.range n).map (· + 1) := by
  unfold FieldArray.split
  rw [List.map_map]
  rfl

/-- C7: the array-level `split` returns shares sorted in strictly ascending
order of id, every id lies in `[1, n]`, and each id of `[1, n]` occurs
exactly once. -/
theorem claim_C7_split_ids_sorted_complete (secret : List gf256) (n t : Nat)
    (rng : Nat → Nat → gf256) (ht : 1 ≤ t) (htn : t ≤ n) (hn : n ≤ 255) :
    ((FieldArray.split secret n t rng).map Prod.fst).Pairwise (· < ·) ∧
      (∀ id ∈ (FieldArray.split secret n t rng).map Prod.fst, 1 ≤ id ∧ id ≤ n) ∧
      (∀ id, 1 ≤ id → id ≤ n →
        ((FieldArray.split secret n t rng).map Prod.fst).count id = 1) := by
  rw [arr_split_map_fst]
  refine ⟨?_, ?_, ?_⟩
  · exact (List.pairwise_lt_range n).map _ (fun h => by omega)
  · intro id hid
    rw [List.mem_map] at hid
    obtain ⟨k, hk, hk1⟩ := hid
    rw [List.mem_range] at hk
    omega
  · intro id h1 h2
    have hmem : id ∈ (List.range n).map (· + 1) := by
      rw [List.mem_map]
      exact ⟨id - 1, List.mem_range.mpr (by omega), by omega⟩
    exact List.count_eq_one_of_mem (range_succ_nodup n) hmem

/-- Witness for C7 at a concrete instance. -/
theorem claim_C7_split_ids_sorted_complete_witness :
    (((FieldArray.split [(⟨5, by decide⟩ : gf256)] 3 2 (fun _ _ => ⟨7, by decide⟩)).map
        Prod.fst).Pairwise (· < ·)) ∧
      (∀ id ∈ (FieldArray.split [(⟨5, by decide⟩ : gf256)] 3 2
          (fun _ _ => ⟨7, by decide⟩)).map Prod.fst, 1 ≤ id ∧ id ≤ 3) ∧
      (∀ id, 1 ≤ id → id ≤ 3 →
        ((FieldArray.split [(⟨5, by decide⟩ : gf256)] 3 2
          (fun _ _ => ⟨7, by decide⟩)).map Prod.fst).count id = 1) :=
  claim_C7_split_ids_sorted_complete [⟨5, by decide⟩] 3 2 (fun _ _ => ⟨7, by decide⟩)
    (by decide) (by decide) (by decide)

/-- From `src/utils.rs` (`bytes_to_bits`): for each byte emit the 8 bits from
most-significant to least-significant (`(0..8).rev()`). -/
def bytes_to_bits (bytes : List Nat) : List Bool :=
  bytes.flatMap fun b => ((List.range 8).reverse).map fun i => (b >>> i) &&& 1 == 1

/-- Fixed-size chunking of a list (Rust `slice::chunks(k)`), fuelled by the
list length so that it is structurally recursive. -/
def chunksAux {α : Type} (k : Nat) : Nat → List α → List (List α)
  | 0, _ => []
  | _ + 1, [] => []
  | fuel + 1, a :: l => (a :: l).take k :: chunksAux k fuel ((a :: l).drop k)

/-- Rust `slice::chunks(k)`: split into groups of `k`, the last possibly
shorter. -/
def chunks {α : Type} (k : Nat) (l : List α) : List (List α) := chunksAux k l.length l

/-- From `src/utils.rs` (`bits_to_bytes`), the byte assembled from one chunk:
`fold(0, |acc, (i, b)| acc | (b as u8) << (7 - i))`. -/
def byteAcc (chunk : List Bool) : Nat :=
  chunk.enum.foldl (fun acc p => acc ||| (if p.2 then 1 else 0) <<< (7 - p.1)) 0

/-- From `src/utils.rs` (`bits_to_bytes`): chunk into groups of 8 and fold
each into a byte, most-significant bit first. -/
def bits_to_bytes (bits : List Bool) : List Nat := (chunks 8 bits).map byteAcc

theorem chunksAux_fuel_irrelevant {α : Type} {k : Nat} (hk : 1 ≤ k) :
    ∀ (f1 : Nat) (l : List α) (f2 : Nat), l.length ≤ f1 → l.length ≤ f2 →
      chunksAux k f1 l = chunksAux k f2 l := by
  intro f1
  induction f1 with
  | zero =>
      intro l f2 h1 _
      have : l = [] := List.length_eq_zero.mp (by omega)
      subst this
      cases f2 <;> rfl
  | succ f ih =>
      intro l f2 h1 h2
      cases l with
      | nil => cases f2 <;> rfl
      | cons a l =>
          cases f2 with
          | zero => simp at h2
          | succ f2' =>
              show (a :: l).take k :: chunksAux k f ((a :: l).drop k) =
                (a :: l).take k :: chunksAux k f2' ((a :: l).drop k)
              congr 1
              apply ih
              · rw [List.length_drop, List.length_cons]
                rw [List.length_cons] at h1
                omega
              · rw [List.length_drop, List.length_cons]
                rw [List.length_cons] at h2
                omega

theorem chunks_append {α : Type} {k : Nat} (hk : 1 ≤ k) (l₁ l₂ : List α)
    (h : l₁.length = k) : chunks k (l₁ ++ l₂) = l₁ :: chunks k l₂ := by
  unfold chunks
  cases l₁ with
  | nil => simp at h; omega
  | cons a l =>
      have hlen : ((a :: l) ++ l₂).length = (a :: l).length + l₂.length := by
        rw [List.length_append]
      show chunksAux k (((a :: l) ++ l₂).length) ((a :: l) ++ l₂) = _
      rw [hlen]
      show chunksAux k ((a :: l).length + l₂.length) (a :: (l ++ l₂)) = _
      have hcons : (a :: l).length + l₂.length = (l.length + l₂.length) + 1 := by
        simp
        omega
      rw [hcons]
      show ((a :: (l ++ l₂)).take k) :: chunksAux k (l.length + l₂.length)
          ((a :: (l ++ l₂)).drop k) = _
      congr 1
      · rw [show (a :: (l ++ l₂)) = (a :: l) ++ l₂ from rfl, List.take_left' h]
      · rw [show (a :: (l ++ l₂)) = (a :: l) ++ l₂ from rfl, List.drop_left' h]
        apply chunksAux_fuel_irrelevant hk
        · omega
        · omega

/-- The per-byte bit expansion used by `bytes_to_bits`. -/
def bits8 (b : Nat) : List Bool :=
  ((List.range 8).reverse).map fun i => (b >>> i) &&& 1 == 1

theorem bytes_to_bits_eq_flatMap (bytes : List Nat) :
    bytes_to_bits bytes = bytes.flatMap bits8 := rfl

theorem bits8_length (b : Nat) : (bits8 b).length = 8 := rfl

theorem shift_and_one (b : Nat) : ∀ i, ((b >>> i) &&& 1 == 1) = b.testBit i := by
  intro i
  rw [Nat.and_one_is_mod, Nat.shiftRight_eq_div_pow, Nat.testBit_to_div_mod]
  rcases Nat.mod_two_eq_zero_or_one (b / 2 ^ i) with h | h <;> rw [h] <;> rfl

theorem bits8_eq_testBit (b : Nat) :
    bits8 b = (List.range 8).map fun i => b.testBit (7 - i) := by
  show ((List.range 8).reverse).map (fun i => (b >>> i) &&& 1 == 1) = _
  have h1 : (List.range 8).reverse = (List.range 8).map (fun i => 7 - i) := by decide
  rw [h1, List.map_map]
  apply List.map_congr_left
  intro i _
  simp only [Function.comp]
  exact shift_and_one b (7 - i)

set_option maxRecDepth 4000 in
theorem byte_roundtrip_check :
    ((List.range 256).all fun b => byteAcc (bits8 b) == b) = true := by decide

theorem byte_roundtrip {b : Nat} (hb : b < 256) : byteAcc (bits8 b) = b :=
  eq_of_beq (List.all_eq_true.mp byte_roundtrip_check b (List.mem_range.mpr hb))

theorem chunksAux_nil {α : Type} (k : Nat) : ∀ f, chunksAux k f ([] : List α) = [] := by
  intro f
  cases f <;> rfl

theorem chunks_short {α : Type} {k : Nat} (hk : 1 ≤ k) (l : List α) (h1 : 0 < l.length)
    (h2 : l.length ≤ k) : chunks k l = [l] := by
  unfold chunks
  cases l with
  | nil => simp at h1
  | cons a l =>
      show chunksAux k (l.length + 1) (a :: l) = _
      show ((a :: l).take k) :: chunksAux k l.length ((a :: l).drop k) = _
      rw [List.take_of_length_le h2, List.drop_eq_nil_of_le h2, chunksAux_nil]

theorem enumFrom_append {α : Type} :
    ∀ (l1 l2 : List α) (n : Nat),
      (l1 ++ l2).enumFrom n = l1.enumFrom n ++ l2.enumFrom (n + l1.length) := by
  intro l1
  induction l1 with
  | nil =>
      intro l2 n
      simp
  | cons a l ih =>
      intro l2 n
      rw [List.cons_append, List.enumFrom_cons, ih, List.enumFrom_cons, List.cons_append,
        List.length_cons]
      have : n + 1 + l.length = n + (l.length + 1) := by omega
      rw [this]

theorem foldl_false_id :
    ∀ (m n : Nat) (acc : Nat),
      ((List.replicate m false).enumFrom n).foldl
        (fun acc p => acc ||| (if p.2 then 1 else 0) <<< (7 - p.1)) acc = acc := by
  intro m
  induction m with
  | zero =>
      intro n acc
      rfl
  | succ m ih =>
      intro n acc
      rw [List.replicate_succ, List.enumFrom_cons, List.foldl_cons]
      rw [show ((if false then 1 else 0 : Nat)) = 0 from rfl, Nat.zero_shiftLeft, Nat.or_zero]
      exact ih (n + 1) acc

theorem byteAcc_append_false (chunk : List Bool) (m : Nat) :
    byteAcc (chunk ++ List.replicate m false) = byteAcc chunk := by
  unfold byteAcc
  show ((chunk ++ List.replicate m false).enumFrom 0).foldl _ 0 = _
  rw [enumFrom_append, List.foldl_append]
  exact foldl_false_id m (0 + chunk.length) _

/-- C9: the bit codec round-trips byte lists, emits bits most-significant
first, and assembles a short trailing group by padding with zero bits on the
low-significance side. -/
theorem claim_C9_bit_codec :
    (∀ B : List Nat, (∀ b ∈ B, b < 256) → bits_to_bytes (bytes_to_bits B) = B) ∧
      (∀ B : List Nat,
        bytes_to_bits B = B.flatMap fun b => (List.range 8).map fun i => b.testBit (7 - i)) ∧
      (∀ bits : List Bool, 0 < bits.length → bits.length ≤ 8 →
        bits_to_bytes bits = [byteAcc (bits ++ List.replicate (8 - bits.length) false)]) := by
  refine ⟨?_, ?_, ?_⟩
  · intro B
    induction B with
    | nil =>
        intro _
        rfl
    | cons b B ih =>
        intro hb
        rw [bytes_to_bits_eq_flatMap, List.flatMap_cons, ← bytes_to_bits_eq_flatMap]
        unfold bits_to_bytes
        rw [chunks_append (by omega) _ _ (bits8_length b)]
        rw [List.map_cons, byte_roundtrip (hb b (by simp))]
        have h2 := ih fun x hx => hb x (by simp [hx])
        unfold bits_to_bytes at h2
        rw [h2]
  · intro B
    have hfun : bits8 = fun b => (List.range 8).map fun i => b.testBit (7 - i) :=
      funext bits8_eq_testBit
    rw [bytes_to_bits_eq_flatMap, hfun]
  · intro bits h1 h2
    unfold bits_to_bytes
    rw [chunks_short (by omega) bits h1 h2, List.map_singleton,
      byteAcc_append_false bits (8 - bits.length)]

/-- Witness for C9 at concrete inputs. -/
theorem claim_C9_bit_codec_witness :
    ((∀ b ∈ ([0, 255, 170] : List Nat), b < 256) ∧
      bits_to_bytes (bytes_to_bits [0, 255, 170]) = [0, 255, 170]) ∧
      (0 < ([true, false, true] : List Bool).length ∧
        ([true, false, true] : List Bool).length ≤ 8 ∧
        bits_to_bytes [true, false, true] =
          [byteAcc ([true, false, true] ++
            List.replicate (8 - ([true, false, true] : List Bool).length) false)]) :=
  ⟨⟨by decide, claim_C9_bit_codec.1 [0, 255, 170] (by decide)⟩,
    by decide, by decide,
    claim_C9_bit_codec.2.2 [true, false, true] (by decide) (by decide)⟩

/-- Modelled from the spec: the SHA-256 hash (the `fastcrypto` crate is an
external dependency; the checksum is defined as the first 8 bits of SHA-256
over the entropy bytes, spec section 4.7).  Standard FIPS 180-4 algorithm over
byte lists, word arithmetic modulo 2^32. -/
def sha256K : List Nat := [
    1116352408, 1899447441, 3049323471, 3921009573, 961987163, 1508970993, 2453635748, 2870763221,
    3624381080, 310598401, 607225278, 1426881987, 1925078388, 2162078206, 2614888103, 3248222580,
    3835390401, 4022224774, 264347078, 604807628, 770255983, 1249150122, 1555081692, 1996064986,
    2554220882, 2821834349, 2952996808, 3210313671, 3336571891, 3584528711, 113926993, 338241895,
    666307205, 773529912, 1294757372, 1396182291, 1695183700, 1986661051, 2177026350, 2456956037,
    2730485921, 2820302411, 3259730800, 3345764771, 3516065817, 3600352804, 4094571909, 275423344,
    430227734, 506948616, 659060556, 883997877, 958139571, 1322822218, 1537002063, 1747873779,
    1955562222, 2024104815, 2227730452, 2361852424, 2428436474, 2756734187, 3204031479, 3329325298]

def sha256H0 : List Nat :=
  [1779033703, 3144134277, 1013904242, 2773480762,
   1359893119, 2600822924, 528734635, 1541459225]

def w32 (x : Nat) : Nat := x % 2 ^ 32

def rotr (n x : Nat) : Nat := w32 ((x >>> n) ||| (x <<< (32 - n)))

def bsig0 (x : Nat) : Nat := rotr 2 x ^^^ rotr 13 x ^^^ rotr 22 x

def bsig1 (x : Nat) : Nat := rotr 6 x ^^^ rotr 11 x ^^^ rotr 25 x

def ssig0 (x : Nat) : Nat := rotr 7 x ^^^ rotr 18 x ^^^ (x >>> 3)

def ssig1 (x : Nat) : Nat := rotr 17 x ^^^ rotr 19 x ^^^ (x >>> 10)

/-- Big-endian byte serialisation of `n` into `k` bytes. -/
def toBytesBE (k n : Nat) : List Nat :=
  (List.range k).map fun i => (n >>> (8 * (k - 1 - i))) % 256

/-- Big-endian byte deserialisation. -/
def fromBytesBE (l : List Nat) : Nat := l.foldl (fun acc b => acc * 256 + b) 0

def sha256Pad (msg : List Nat) : List Nat :=
  msg ++ [128] ++ List.replicate ((64 - (msg.length + 9) % 64) % 64) 0 ++
    toBytesBE 8 (8 * msg.length)

def sha256Schedule (ws : List Nat) : List Nat :=
  (List.range 48).foldl
    (fun w _ =>
      w ++ [w32 (ssig1 (w.getD (w.length - 2) 0) + w.getD (w.length - 7) 0 +
        ssig0 (w.getD (w.length - 15) 0) + w.getD (w.length - 16) 0)])
    ws

def sha256Round (st : List Nat) (k w : Nat) : List Nat :=
  let a := st.getD 0 0
  let b := st.getD 1 0
  let c := st.getD 2 0
  let d := st.getD 3 0
  let e := st.getD 4 0
  let f := st.getD 5 0
  let g := st.getD 6 0
  let h := st.getD 7 0
  let ch := (e &&& f) ^^^ ((e ^^^ 4294967295) &&& g)
  let t1 := w32 (h + bsig1 e + ch + k + w)
  let maj := (a &&& b) ^^^ (a &&& c) ^^^ (b &&& c)
  let t2 := w32 (bsig0 a + maj)
  [w32 (t1 + t2), a, b, c, w32 (d + t1), e, f, g]

def sha256Compress (h : List Nat) (block : List Nat) : List Nat :=
  let ws := sha256Schedule ((chunks 4 block).map fromBytesBE)
  let st := (List.range 64).foldl
    (fun st i => sha256Round st (sha256K.getD i 0) (ws.getD i 0)) h
  (List.range 8).map fun i => w32 (h.getD i 0 + st.getD i 0)

def sha256 (msg : List Nat) : List Nat :=
  ((chunks 64 (sha256Pad msg)).foldl sha256Compress sha256H0).flatMap (toBytesBE 4)

set_option maxRecDepth 8000 in
theorem sha256_test_vector_abc :
    sha256 [97, 98, 99] =
      [186, 120, 22, 191, 143, 1, 207, 234, 65, 65, 64, 222, 93, 174, 34, 35,
       176, 3, 97, 163, 150, 23, 122, 156, 180, 16, 255, 97, 242, 0, 21, 173] := by decide

/-- From `src/bip39.rs`: parameters of the 24-word BIP-39 variant. -/
def DICTIONARY_INDICES_BITS : Nat := 11

def MNEMONIC_WORDS : Nat := 24

def DICTIONARY_WORDS : Nat := 2 <<< (DICTIONARY_INDICES_BITS - 1)

def CHECKSUM_BITS : Nat := (MNEMONIC_WORDS * DICTIONARY_INDICES_BITS) / 33

def ENTROPY_BITS : Nat := CHECKSUM_BITS * 32

def ENTROPY_BYTES : Nat := ENTROPY_BITS / 8

/-- From `src/bip39.rs` (`Bip39Dictionary::bits_from_word`): the position of
the word in the dictionary, serialised as a 64-bit big-endian `usize` whose
last 11 bits are kept.  The dictionary asset file is external, so the
dictionary is an abstract word list; the theorems assume the documented
invariants (2048 distinct words). -/
def bits_from_word (dict : List String) (word : String) : Option (List Bool) :=
  (dict.findIdx? fun w => w == word).map fun index =>
    (bytes_to_bits (toBytesBE 8 index)).drop (64 - DICTIONARY_INDICES_BITS)

/-- From `src/bip39.rs` (`Bip39Dictionary::word_from_bits`): embed the 11
bits as the trailing bits of a zeroed 64-bit buffer, decode big-endian and
index the dictionary (out-of-range indexing, a panic in Rust, is modelled by
the `""` default and never reached under the stated invariants). -/
def word_from_bits (dict : List String) (bits : List Bool) : String :=
  let extended := List.replicate (64 - DICTIONARY_INDICES_BITS) false ++ bits
  dict.getD (fromBytesBE (bits_to_bytes extended)) ""

/-- From `src/bip39.rs`: a secret is an entropy bit string plus a checksum
bit string. -/
structure Bip39Secret where
  entropy : List Bool
  checksum : List Bool
deriving DecidableEq

/-- From `src/bip39.rs` (`impl From<&Entropy> for Checksum`): the first 8
bits of SHA-256 over the entropy bytes. -/
def checksumOf (entropy : List Bool) : List Bool :=
  (bytes_to_bits (sha256 (bits_to_bytes entropy))).take CHECKSUM_BITS

/-- From `src/bip39.rs` (`impl From<Entropy> for Bip39Secret`): wrapping an
entropy always recomputes the checksum. -/
def Bip39Secret.ofEntropy (e : List Bool) : Bip39Secret := ⟨e, checksumOf e⟩

/-- From `src/bip39.rs` (`Bip39Secret::is_valid`). -/
def Bip39Secret.is_valid (s : Bip39Secret) : Bool := s.checksum == checksumOf s.entropy

/-- The `collect::<Result<Vec<_>>>` of per-word lookups in `from_mnemonic`. -/
def traverseBits (dict : List String) : List String → Option (List (List Bool))
  | [] => some []
  | w :: ws =>
      match bits_from_word dict w, traverseBits dict ws with
      | some b, some bs => some (b :: bs)
      | _, _ => none

/-- From `src/bip39.rs` (`Bip39Secret::from_mnemonic`); the mnemonic string
arrives pre-tokenised (`split_whitespace` is std library code).  Exactly 24
words are required; the first 256 bits are the entropy and the remaining 8
the declared checksum. -/
def Bip39Secret.from_mnemonic (dict : List String) (words : List String) :
    Option Bip39Secret :=
  if words.length = MNEMONIC_WORDS then
    (traverseBits dict words).map fun bitss =>
      ⟨bitss.flatten.take ENTROPY_BITS, bitss.flatten.drop ENTROPY_BITS⟩
  else none

/-- From `src/bip39.rs` (`Bip39Secret::to_mnemonic`): chunk entropy plus
checksum into 11-bit groups and look each up (the space-joining of the words
is presentation, modelled as the word list). -/
def Bip39Secret.to_mnemonic (dict : List String) (s : Bip39Secret) : List String :=
  (chunks DICTIONARY_INDICES_BITS (s.entropy ++ s.checksum)).map (word_from_bits dict)

/-- From `src/bip39.rs` (`Bip39Secret::split`): lift the entropy bytes into
the field, split element-wise, and wrap each share's bytes as a fresh
self-checksummed secret. -/
def Bip39Secret.split (s : Bip39Secret) (n t : Nat) (rng : Nat → Nat → gf256) :
    List (Nat × Bip39Secret) :=
  (FieldArray.split ((bits_to_bytes s.entropy).map gfOfId) n t rng).map fun sh =>
    (sh.1, Bip39Secret.ofEntropy (bytes_to_bits (sh.2.map gf256.val)))

/-- From `src/bip39.rs` (`Bip39Secret::reconstruct`): interpolate the 32
entropy bytes element-wise and wrap the result, recomputing its checksum. -/
def Bip39Secret.reconstruct (shares : List (Nat × Bip39Secret)) : Bip39Secret :=
  Bip39Secret.ofEntropy (bytes_to_bits
    ((FieldArray.reconstruct
      (shares.map fun sh => (sh.1, (bits_to_bytes sh.2.entropy).map gfOfId))
      ENTROPY_BYTES).map gf256.val))

/-- From `src/main.rs` (`Operation::Check`): a parse failure propagates with
`?` (process exit is then non-zero); once parsed, validity is only printed --
both branches fall through to `Ok(())`, i.e. exit code 0. -/
def runCheck (dict : List String) (words : List String) : Except String String :=
  match Bip39Secret.from_mnemonic dict words with
  | none => Except.error "invalid mnemonic words"
  | some secret =>
      if secret.is_valid then Except.ok "The mnemonic is valid"
      else Except.ok "Invalid mnemonic"

theorem is_valid_ofEntropy (e : List Bool) : (Bip39Secret.ofEntropy e).is_valid = true := by
  unfold Bip39Secret.is_valid Bip39Secret.ofEntropy
  simp

/-- C5: every share produced by `split` is a self-consistent BIP-39 secret:
its declared checksum is recomputed (first 8 bits of SHA-256) over that
share's own entropy bytes, so each share validates in isolation. -/
theorem claim_C5_shares_self_checksummed (s : Bip39Secret) (n t : Nat)
    (rng : Nat → Nat → gf256) (hs : s.is_valid = true) (ht : 1 ≤ t) (htn : t ≤ n)
    (hn : n ≤ 255) :
    ∀ p ∈ s.split n t rng,
      p.2.is_valid = true ∧
        p.2.checksum = checksumOf p.2.entropy := by
  intro p hp
  unfold Bip39Secret.split at hp
  rw [List.mem_map] at hp
  obtain ⟨sh, _, hshp⟩ := hp
  rw [← hshp]
  exact ⟨is_valid_ofEntropy _, rfl⟩

/-- Witness for C5 at a concrete instance. -/
theorem claim_C5_shares_self_checksummed_witness :
    (Bip39Secret.ofEntropy (List.replicate 256 false)).is_valid = true ∧
      ∀ p ∈ (Bip39Secret.ofEntropy (List.replicate 256 false)).split 1 1
          (fun _ _ => ⟨7, by decide⟩),
        p.2.is_valid = true ∧ p.2.checksum = checksumOf p.2.entropy :=
  ⟨is_valid_ofEntropy _,
    claim_C5_shares_self_checksummed (Bip39Secret.ofEntropy (List.replicate 256 false)) 1 1
      (fun _ _ => ⟨7, by decide⟩) (is_valid_ofEntropy _) (by decide) (by decide) (by decide)⟩

/-- C6: `Bip39Secret::reconstruct` always wraps the interpolated entropy via
the checksum-recomputing constructor, so its result passes `is_valid`
whatever shares were supplied -- the final mnemonic's checksum can never
reveal that too few or wrong shares were used. -/
theorem claim_C6_reconstruct_always_validates (shares : List (Nat × Bip39Secret))
    (hne : shares ≠ []) :
    (Bip39Secret.reconstruct shares).is_valid = true := by
  unfold Bip39Secret.reconstruct
  exact is_valid_ofEntropy _

/-- Witness for C6 at a concrete instance. -/
theorem claim_C6_reconstruct_always_validates_witness :
    (Bip39Secret.reconstruct
      [(1, Bip39Secret.ofEntropy (List.replicate 256 false))]).is_valid = true :=
  claim_C6_reconstruct_always_validates [(1, Bip39Secret.ofEntropy (List.replicate 256 false))]
    (List.cons_ne_nil _ _)

theorem byteAcc5_lt : ∀ a b c : Bool,
    byteAcc [false, false, false, false, false, a, b, c] < 8 := by decide

theorem byteAcc8_lt : ∀ a b c d e f g h : Bool,
    byteAcc [a, b, c, d, e, f, g, h] < 256 := by decide

theorem bits5_of_byteAcc : ∀ a b c : Bool,
    (bits8 (byteAcc [false, false, false, false, false, a, b, c])).drop 5 = [a, b, c] := by
  decide

set_option maxRecDepth 4000 in
theorem bits8_of_byteAcc : ∀ a b c d e f g h : Bool,
    bits8 (byteAcc [a, b, c, d, e, f, g, h]) = [a, b, c, d, e, f, g, h] := by decide

theorem list_bool_eleven (c : List Bool) (hc : c.length = 11) :
    ∃ b0 b1 b2 b3 b4 b5 b6 b7 b8 b9 b10,
      c = [b0, b1, b2, b3, b4, b5, b6, b7, b8, b9, b10] := by
  rcases c with _ | ⟨b0, c⟩
  · simp at hc
  rcases c with _ | ⟨b1, c⟩
  · simp at hc
  rcases c with _ | ⟨b2, c⟩
  · simp at hc
  rcases c with _ | ⟨b3, c⟩
  · simp at hc
  rcases c with _ | ⟨b4, c⟩
  · simp at hc
  rcases c with _ | ⟨b5, c⟩
  · simp at hc
  rcases c with _ | ⟨b6, c⟩
  · simp at hc
  rcases c with _ | ⟨b7, c⟩
  · simp at hc
  rcases c with _ | ⟨b8, c⟩
  · simp at hc
  rcases c with _ | ⟨b9, c⟩
  · simp at hc
  rcases c with _ | ⟨b10, c⟩
  · simp at hc
  rcases c with _ | ⟨b11, c⟩
  · exact ⟨b0, b1, b2, b3, b4, b5, b6, b7, b8, b9, b10, rfl⟩
  · simp at hc

/-- Core word-codec fact: an 11-bit chunk survives the trip through
`bits_to_bytes`, big-endian decoding, big-endian re-encoding and
`bytes_to_bits`, and its value is below 2048. -/
theorem word_bits_roundtrip (c : List Bool) (hc : c.length = 11) :
    (bytes_to_bits (toBytesBE 8 (fromBytesBE (bits_to_bytes
        (List.replicate 53 false ++ c))))).drop 53 = c ∧
      fromBytesBE (bits_to_bytes (List.replicate 53 false ++ c)) < 2048 := by
  obtain ⟨b0, b1, b2, b3, b4, b5, b6, b7, b8, b9, b10, rfl⟩ := list_bool_eleven c hc
  have hx : byteAcc [false, false, false, false, false, b0, b1, b2] < 8 := byteAcc5_lt b0 b1 b2
  have hy : byteAcc [b3, b4, b5, b6, b7, b8, b9, b10] < 256 :=
    byteAcc8_lt b3 b4 b5 b6 b7 b8 b9 b10
  have hA : bits_to_bytes (List.replicate 53 false ++
      [b0, b1, b2, b3, b4, b5, b6, b7, b8, b9, b10]) =
      [0, 0, 0, 0, 0, 0, byteAcc [false, false, false, false, false, b0, b1, b2],
        byteAcc [b3, b4, b5, b6, b7, b8, b9, b10]] := rfl
  have hv : fromBytesBE [0, 0, 0, 0, 0, 0,
      byteAcc [false, false, false, false, false, b0, b1, b2],
      byteAcc [b3, b4, b5, b6, b7, b8, b9, b10]] =
      byteAcc [false, false, false, false, false, b0, b1, b2] * 256 +
        byteAcc [b3, b4, b5, b6, b7, b8, b9, b10] := by
    simp [fromBytesBE]
  have hD : toBytesBE 8 (byteAcc [false, false, false, false, false, b0, b1, b2] * 256 +
      byteAcc [b3, b4, b5, b6, b7, b8, b9, b10]) =
      [0, 0, 0, 0, 0, 0, byteAcc [false, false, false, false, false, b0, b1, b2],
        byteAcc [b3, b4, b5, b6, b7, b8, b9, b10]] := by
    have h1 : ∀ v : Nat, toBytesBE 8 v = [v >>> 56 % 256, v >>> 48 % 256, v >>> 40 % 256,
        v >>> 32 % 256, v >>> 24 % 256, v >>> 16 % 256, v >>> 8 % 256, v >>> 0 % 256] :=
      fun v => rfl
    rw [h1]
    have e0 : ∀ v : Nat, v < 65536 → v >>> 56 % 256 = 0 := by
      intro v hv
      rw [Nat.shiftRight_eq_div_pow]
      omega
    have e1 : ∀ v : Nat, v < 65536 → v >>> 48 % 256 = 0 := by
      intro v hv
      rw [Nat.shiftRight_eq_div_pow]
      omega
    have e2 : ∀ v : Nat, v < 65536 → v >>> 40 % 256 = 0 := by
      intro v hv
      rw [Nat.shiftRight_eq_div_pow]
      omega
    have e3 : ∀ v : Nat, v < 65536 → v >>> 32 % 256 = 0 := by
      intro v hv
      rw [Nat.shiftRight_eq_div_pow]
      omega
    have e4 : ∀ v : Nat, v < 65536 → v >>> 24 % 256 = 0 := by
      intro v hv
      rw [Nat.shiftRight_eq_div_pow]
      omega
    have e5 : ∀ v : Nat, v < 65536 → v >>> 16 % 256 = 0 := by
      intro v hv
      rw [Nat.shiftRight_eq_div_pow]
      omega
    have hvlt : byteAcc [false, false, false, false, false, b0, b1, b2] * 256 +
        byteAcc [b3, b4, b5, b6, b7, b8, b9, b10] < 65536 := by omega
    rw [e0 _ hvlt, e1 _ hvlt, e2 _ hvlt, e3 _ hvlt, e4 _ hvlt, e5 _ hvlt]
    have e6 : (byteAcc [false, false, false, false, false, b0, b1, b2] * 256 +
        byteAcc [b3, b4, b5, b6, b7, b8, b9, b10]) >>> 8 % 256 =
        byteAcc [false, false, false, false, false, b0, b1, b2] := by
      rw [Nat.shiftRight_eq_div_pow]
      omega
    have e7 : (byteAcc [false, false, false, false, false, b0, b1, b2] * 256 +
        byteAcc [b3, b4, b5, b6, b7, b8, b9, b10]) >>> 0 % 256 =
        byteAcc [b3, b4, b5, b6, b7, b8, b9, b10] := by
      rw [Nat.shiftRight_eq_div_pow]
      omega
    rw [e6, e7]
  have hE : ∀ x y : Nat, (bytes_to_bits [0, 0, 0, 0, 0, 0, x, y]).drop 53 =
      (bits8 x).drop 5 ++ bits8 y := fun x y => rfl
  constructor
  · rw [hA, hv, hD, hE, bits5_of_byteAcc b0 b1 b2, bits8_of_byteAcc b3 b4 b5 b6 b7 b8 b9 b10]
    rfl
  · rw [hA, hv]
    omega

theorem findIdx_getD_of_nodup :
    ∀ (dict : List String) (i : Nat), dict.Nodup → i < dict.length →
      (dict.findIdx? fun w => w == dict.getD i "") = some i := by
  intro dict
  induction dict with
  | nil =>
      intro i _ hi
      simp at hi
  | cons d ds ih =>
      intro i hnd hi
      rcases i with _ | j
      · rw [List.findIdx?_cons]
        have : (d == (d :: ds).getD 0 "") = true := by
          rw [List.getD_cons_zero]
          exact beq_self_eq_true d
        rw [this]
        rfl
      · rw [List.findIdx?_cons]
        have hj : j < ds.length := by
          rw [List.length_cons] at hi
          omega
        have hw : (d :: ds).getD (j + 1) "" = ds.getD j "" := List.getD_cons_succ
        have hmem : ds.getD j "" ∈ ds := by
          rw [List.getD_eq_getElem ds "" hj]
          exact List.getElem_mem hj
        have hne : (d == (d :: ds).getD (j + 1) "") = false := by
          rw [hw]
          rw [beq_eq_false_iff_ne]
          intro heq
          exact (List.nodup_cons.mp hnd).1 (heq ▸ hmem)
        rw [hne]
        show (ds.findIdx? (fun w => w == (d :: ds).getD (j + 1) "") 1) = some (j + 1)
        have hsucc : ds.findIdx? (fun w => w == (d :: ds).getD (j + 1) "") (0 + 1) =
            (ds.findIdx? (fun w => w == (d :: ds).getD (j + 1) "") 0).map fun i => i + 1 :=
          List.findIdx?_succ
        rw [show (1 : Nat) = 0 + 1 from rfl, hsucc]
        have hds : (ds.findIdx? fun w => w == (d :: ds).getD (j + 1) "") = some j := by
          rw [hw]
          exact ih j (List.nodup_cons.mp hnd).2 hj
        rw [hds]
        rfl

/-- The word produced by `word_from_bits` parses back to exactly its 11
bits, for any duplicate-free 2048-word dictionary. -/
theorem bits_from_word_of_word_from_bits (dict : List String) (hnd : dict.Nodup)
    (hdl : dict.length = 2048) (c : List Bool) (hc : c.length = 11) :
    bits_from_word dict (word_from_bits dict c) = some c := by
  obtain ⟨hrt, hlt⟩ := word_bits_roundtrip c hc
  unfold word_from_bits bits_from_word
  have h53 : 64 - DICTIONARY_INDICES_BITS = 53 := rfl
  rw [h53]
  have hvlen : fromBytesBE (bits_to_bytes (List.replicate 53 false ++ c)) < dict.length := by
    rw [hdl]
    exact hlt
  rw [findIdx_getD_of_nodup dict _ hnd hvlen]
  show some ((bytes_to_bits (toBytesBE 8 (fromBytesBE (bits_to_bytes
    (List.replicate 53 false ++ c))))).drop 53) = some c
  rw [hrt]

theorem flatMap_length_const {α β : Type} (f : α → List β) (k : Nat)
    (hf : ∀ a, (f a).length = k) : ∀ l : List α, (l.flatMap f).length = k * l.length := by
  intro l
  induction l with
  | nil => simp
  | cons a l ih =>
      rw [List.flatMap_cons, List.length_append, hf a, ih, List.length_cons]
      ring

theorem toBytesBE_length (k n : Nat) : (toBytesBE k n).length = k := by
  unfold toBytesBE
  rw [List.length_map, List.length_range]

theorem sha256Compress_length (h block : List Nat) : (sha256Compress h block).length = 8 := by
  show ((List.range 8).map _).length = 8
  rw [List.length_map, List.length_range]

theorem sha256_length (msg : List Nat) : (sha256 msg).length = 32 := by
  unfold sha256
  rw [flatMap_length_const (toBytesBE 4) 4 (toBytesBE_length 4)]
  have hst : ∀ (bl : List (List Nat)) (h : List Nat), h.length = 8 →
      (bl.foldl sha256Compress h).length = 8 := by
    intro bl
    induction bl with
    | nil =>
        intro h hh
        exact hh
    | cons b bl ih =>
        intro h _
        rw [List.foldl_cons]
        exact ih _ (sha256Compress_length h b)
  rw [hst _ sha256H0 rfl]

theorem checksumOf_length (e : List Bool) : (checksumOf e).length = 8 := by
  unfold checksumOf
  rw [List.length_take]
  have h1 : (bytes_to_bits (sha256 (bits_to_bytes e))).length = 256 := by
    rw [bytes_to_bits_eq_flatMap, flatMap_length_const bits8 8 bits8_length,
      sha256_length]
  rw [h1]
  rfl

theorem chunks_flatten {α : Type} {k : Nat} (hk : 1 ≤ k) (l : List α) :
    (chunks k l).flatten = l := by
  have aux : ∀ (fuel : Nat) (l : List α), l.length ≤ fuel →
      (chunksAux k fuel l).flatten = l := by
    intro fuel
    induction fuel with
    | zero =>
        intro l hl
        have : l = [] := List.length_eq_zero.mp (by omega)
        subst this
        rfl
    | succ f ih =>
        intro l hl
        cases l with
        | nil => rfl
        | cons a l' =>
            show ((a :: l').take k :: chunksAux k f ((a :: l').drop k)).flatten = a :: l'
            rw [List.flatten_cons, ih ((a :: l').drop k) (by
              rw [List.length_drop, List.length_cons]
              rw [List.length_cons] at hl
              omega), List.take_append_drop]
  exact aux l.length l (Nat.le_refl _)

theorem chunks_count {α : Type} {k : Nat} (hk : 1 ≤ k) :
    ∀ (m : Nat) (l : List α), l.length = k * m →
      (chunks k l).length = m ∧ ∀ c ∈ chunks k l, c.length = k := by
  intro m
  induction m with
  | zero =>
      intro l hl
      have : l = [] := List.length_eq_zero.mp (by omega)
      subst this
      exact ⟨rfl, by intro c hc; simp [chunks, chunksAux] at hc⟩
  | succ m ih =>
      intro l hl
      have hkle : k ≤ l.length := by
        have : k * (m + 1) = k * m + k := by ring
        omega
      have htk : (l.take k).length = k := by
        rw [List.length_take]
        omega
      have hdk : (l.drop k).length = k * m := by
        rw [List.length_drop]
        have : k * (m + 1) = k * m + k := by ring
        omega
      have hsplit := chunks_append hk (l.take k) (l.drop k) htk
      rw [List.take_append_drop] at hsplit
      obtain ⟨ihlen, ihmem⟩ := ih (l.drop k) hdk
      constructor
      · rw [hsplit, List.length_cons, ihlen]
      · intro c hc
        rw [hsplit, List.mem_cons] at hc
        rcases hc with rfl | hc
        · exact htk
        · exact ihmem c hc

theorem traverseBits_map_word (dict : List String) :
    ∀ cl : List (List Bool),
      (∀ c ∈ cl, bits_from_word dict (word_from_bits dict c) = some c) →
      traverseBits dict (cl.map (word_from_bits dict)) = some cl := by
  intro cl
  induction cl with
  | nil =>
      intro _
      rfl
  | cons c cl ih =>
      intro h
      rw [List.map_cons]
      show (match bits_from_word dict (word_from_bits dict c),
        traverseBits dict (cl.map (word_from_bits dict)) with
        | some b, some bs => some (b :: bs)
        | _, _ => none) = some (c :: cl)
      rw [h c (by simp), ih fun x hx => h x (by simp [hx])]

/-- C2: for every 256-bit entropy, emitting the 24-word mnemonic (entropy
plus recomputed checksum packed big-endian into 24 groups of 11 bits mapped
through the dictionary) and parsing it back yields exactly the same entropy
and checksum, and the result passes checksum validation. -/
theorem claim_C2_mnemonic_roundtrip (dict : List String) (e : List Bool)
    (hnd : dict.Nodup) (hdl : dict.length = 2048) (he : e.length = 256) :
    Bip39Secret.from_mnemonic dict ((Bip39Secret.ofEntropy e).to_mnemonic dict) =
        some (Bip39Secret.ofEntropy e) ∧
      (Bip39Secret.ofEntropy e).is_valid = true := by
  refine ⟨?_, is_valid_ofEntropy e⟩
  have hbl : (e ++ checksumOf e).length = 11 * 24 := by
    rw [List.length_append, he, checksumOf_length]
  obtain ⟨hclen, hcmem⟩ := chunks_count (k := 11) (by omega) 24 (e ++ checksumOf e) hbl
  have hwrt : ∀ c ∈ chunks 11 (e ++ checksumOf e),
      bits_from_word dict (word_from_bits dict c) = some c := fun c hc =>
    bits_from_word_of_word_from_bits dict hnd hdl c (hcmem c hc)
  unfold Bip39Secret.to_mnemonic Bip39Secret.from_mnemonic
  have hent : (Bip39Secret.ofEntropy e).entropy = e := rfl
  have hcs : (Bip39Secret.ofEntropy e).checksum = checksumOf e := rfl
  rw [hent, hcs]
  have h11 : DICTIONARY_INDICES_BITS = 11 := rfl
  rw [h11]
  have hwl : ((chunks 11 (e ++ checksumOf e)).map (word_from_bits dict)).length =
      MNEMONIC_WORDS := by
    rw [List.length_map, hclen]
    rfl
  rw [if_pos hwl, traverseBits_map_word dict _ hwrt]
  show some (Bip39Secret.mk ((chunks 11 (e ++ checksumOf e)).flatten.take ENTROPY_BITS)
      ((chunks 11 (e ++ checksumOf e)).flatten.drop ENTROPY_BITS)) =
    some (Bip39Secret.ofEntropy e)
  rw [chunks_flatten (by omega)]
  have hENT : ENTROPY_BITS = 256 := rfl
  rw [hENT, List.take_left' he, List.drop_left' he]
  rfl

/-- Witness for C2 at a concrete dictionary (2048 pairwise-distinct words)
and the all-zero entropy. -/
theorem claim_C2_mnemonic_roundtrip_witness :
    (((List.range 2048).map fun n => String.mk (List.replicate n 'a')).Nodup ∧
        ((List.range 2048).map fun n => String.mk (List.replicate n 'a')).length = 2048 ∧
        (List.replicate 256 false).length = 256) ∧
      Bip39Secret.from_mnemonic
          ((List.range 2048).map fun n => String.mk (List.replicate n 'a'))
          ((Bip39Secret.ofEntropy (List.replicate 256 false)).to_mnemonic
            ((List.range 2048).map fun n => String.mk (List.replicate n 'a'))) =
        some (Bip39Secret.ofEntropy (List.replicate 256 false)) := by
  have hinj : Function.Injective fun n : Nat => String.mk (List.replicate n 'a') := by
    intro a b h
    have h2 : List.replicate a 'a' = List.replicate b 'a' := by
      injection h
    have h3 := congrArg List.length h2
    rw [List.length_replicate, List.length_replicate] at h3
    exact h3
  have hnd : ((List.range 2048).map fun n => String.mk (List.replicate n 'a')).Nodup :=
    (List.nodup_range 2048).map hinj
  have hdl : ((List.range 2048).map fun n => String.mk (List.replicate n 'a')).length =
      2048 := by
    rw [List.length_map, List.length_range]
  have he : (List.replicate 256 false).length = 256 := List.length_replicate 256 false
  exact ⟨⟨hnd, hdl, he⟩,
    (claim_C2_mnemonic_roundtrip _ _ hnd hdl he).1⟩

/-- A concrete duplicate-free 2048-word dictionary used for closed
evaluations. -/
def exampleDict : List String := (List.range 2048).map fun n => String.mk (List.replicate n 'a')

/-- A 24-word mnemonic over `exampleDict` (23 copies of word 0 and one copy
of word 1) whose declared checksum byte is 1, while the checksum of its
all-zero entropy starts with byte 0x66: every word is known and the word
count is right, but the checksum is wrong. -/
def exampleBadMnemonic : List String := List.replicate 23 "" ++ ["a"]

set_option maxRecDepth 8000 in
set_option maxHeartbeats 2000000 in
/-- C8 evaluation at the failing input: the mnemonic parses (24 known
dictionary words) but its checksum is invalid, and `Operation::Check` still
takes the `Ok(())` path -- it prints the diagnostic and exits with code 0,
contradicting the claimed non-zero exit on checksum mismatch. -/
theorem claim_C8_invalid_checksum_still_exits_zero :
    runCheck exampleDict exampleBadMnemonic = Except.ok "Invalid mnemonic" := by rfl
